import Mathlib

/-!
Verification development for the Student-Management-System-CLI repository.

The Python sources (`student_manager.py`, `validation.py`, `student.py`) are
shallowly embedded below:

* Python values stored in a record are modelled by `Value`: `int` as `Int`,
  `str` as `String`, and `float` as an exact rational (`Rat`).  Python's IEEE
  doubles are idealized as the exact rationals denoted by the decimal literals
  the program parses; equality between values (`pyEq`) follows Python `==`
  semantics, where `int` and `float` compare numerically and values of
  different (non-numeric) kinds compare unequal.
* Python dicts are modelled by association lists.  Dict keys are unique in
  Python, so removing a key is modelled by filtering out all bindings of that
  key, and updating an existing key replaces its binding in place.
* Characters are classified by their ASCII classes (the program's regexes and
  the inputs it manipulates are ASCII).
* Interactive prompt loops that re-ask until an acceptable value is supplied
  are modelled by an oracle argument providing the accepted value, guarded by
  the acceptance condition; an interaction that can never complete (the guard
  fails for the supplied oracle value) leaves the store unchanged.
* File-system access (existence checks, the CSV/JSON byte-level codec) is
  modelled at the structure level: a backing file is a header row plus data
  rows, where each JSON payload is represented by its decode outcome.
-/

/-- A Python value stored in a student record: an `int`, a `str`, or a
`float` (idealized as an exact rational, see the module comment). -/
inductive Value where
  | vInt (n : Int)
  | vStr (s : String)
  | vRat (q : Rat)
deriving DecidableEq, Repr

/-- Python `==` on stored values: `int` and `float` compare numerically,
`str` compares by contents, and different non-numeric kinds are unequal. -/
def pyEq : Value → Value → Bool
  | .vInt a, .vInt b => a == b
  | .vStr a, .vStr b => a == b
  | .vRat a, .vRat b => a == b
  | .vInt a, .vRat b => (a : Rat) == b
  | .vRat a, .vInt b => a == (b : Rat)
  | _, _ => false

theorem pyEq_symm (a b : Value) : pyEq a b = pyEq b a := by
  cases a <;> cases b <;> simp [pyEq, BEq.comm]

/-- Python `!=` on stored values. -/
def pyNe (a b : Value) : Bool := !(pyEq a b)

/-! ### Decimal rendering and parsing of natural numbers

These model Python's `str(n)` for a nonnegative `int` and `int(s)` for a
string of decimal digits. -/

/-- The character for a single decimal digit `d < 10`. -/
def digitChar (d : Nat) : Char := Char.ofNat (48 + d)

/-- The numeric value of a decimal digit character. -/
def charToDigit (c : Char) : Nat := c.toNat - 48

/-- The little-endian base-10 digits of `n`, written with structural
recursion on a fuel bound so that it evaluates by kernel reduction. -/
def natDigitsAux : Nat → Nat → List Nat
  | 0, _ => []
  | fuel + 1, n => if n = 0 then [] else (n % 10) :: natDigitsAux fuel (n / 10)

/-- The little-endian base-10 digits of `n` (empty for `0`). -/
def natDigitsLE (n : Nat) : List Nat := natDigitsAux n n

/-- The decimal digit characters of `n`, most significant first; `str(n)`
for a nonnegative Python int. -/
def natToChars (n : Nat) : List Char :=
  if n = 0 then ['0'] else ((natDigitsLE n).reverse.map digitChar)

/-- Python `str(n)` for a nonnegative int. -/
def natToString (n : Nat) : String := String.mk (natToChars n)

/-- Python `int(s)` for a string of decimal digit characters. -/
def charsToNat (cs : List Char) : Nat :=
  Nat.ofDigits 10 ((cs.map charToDigit).reverse)

/-- The number of decimal digits of `n`, i.e. `len(str(n))`. -/
def numDigits (n : Nat) : Nat := (natToChars n).length

/-- Python `s.strip()`: leading and trailing whitespace removed.  (Written
at the character level so that it evaluates by kernel reduction.) -/
def pyStrip (s : String) : String :=
  String.mk (((s.data.dropWhile Char.isWhitespace).reverse.dropWhile
    Char.isWhitespace).reverse)

/-- Python `s.lower()` on ASCII text, at the character level. -/
def pyLower (s : String) : String := String.mk (s.data.map Char.toLower)

theorem charToDigit_digitChar {d : Nat} (h : d < 10) :
    charToDigit (digitChar d) = d := by
  interval_cases d <;> rfl

theorem digitChar_isDigit {d : Nat} (h : d < 10) :
    (digitChar d).isDigit = true := by
  interval_cases d <;> rfl

theorem natDigitsAux_lt (fuel n d : Nat) (hd : d ∈ natDigitsAux fuel n) :
    d < 10 := by
  induction fuel generalizing n with
  | zero => cases hd
  | succ fuel ih =>
      unfold natDigitsAux at hd
      by_cases h0 : n = 0
      · rw [if_pos h0] at hd
        cases hd
      · rw [if_neg h0] at hd
        rcases List.mem_cons.mp hd with rfl | hd
        · exact Nat.mod_lt _ (by norm_num)
        · exact ih _ hd

theorem ofDigits_natDigitsAux (fuel n : Nat) (hle : n ≤ fuel) :
    Nat.ofDigits 10 (natDigitsAux fuel n) = n := by
  induction fuel generalizing n with
  | zero =>
      interval_cases n
      rfl
  | succ fuel ih =>
      unfold natDigitsAux
      by_cases h0 : n = 0
      · rw [if_pos h0, h0]
        rfl
      · rw [if_neg h0, Nat.ofDigits_cons,
          ih (n / 10) (by omega)]
        omega

theorem ofDigits_natDigitsLE (n : Nat) :
    Nat.ofDigits 10 (natDigitsLE n) = n :=
  ofDigits_natDigitsAux n n le_rfl

theorem natToChars_all_digits (n : Nat) :
    (natToChars n).all Char.isDigit = true := by
  unfold natToChars
  split
  · rfl
  · simp only [List.all_eq_true, List.mem_map, List.mem_reverse]
    rintro c ⟨d, hd, rfl⟩
    exact digitChar_isDigit (natDigitsAux_lt n n d hd)

theorem natToChars_ne_nil (n : Nat) : natToChars n ≠ [] := by
  unfold natToChars
  split
  · simp
  · rename_i h0
    have : natDigitsLE n ≠ [] := by
      unfold natDigitsLE
      cases hn : n with
      | zero => exact absurd hn h0
      | succ m =>
          unfold natDigitsAux
          rw [if_neg (by omega)]
          simp
    simpa using this

theorem charsToNat_natToChars (n : Nat) : charsToNat (natToChars n) = n := by
  unfold charsToNat natToChars
  split
  · simp only [*]
    rfl
  · rw [List.map_map]
    have hmap : (natDigitsLE n).reverse.map (charToDigit ∘ digitChar)
        = (natDigitsLE n).reverse.map id := by
      apply List.map_congr_left
      intro d hd
      exact charToDigit_digitChar
        (natDigitsAux_lt n n d (List.mem_reverse.mp hd))
    rw [hmap, List.map_id, List.reverse_reverse, ofDigits_natDigitsLE]

/-! ### Association-list model of Python dicts -/

/-- Python `d.get(k)` / `d[k]`: the value bound to `k`, if any. -/
def lookupKey (d : List (String × Value)) (k : String) : Option Value :=
  (d.find? (fun p => p.1 == k)).map Prod.snd

/-- Python `k in d`. -/
def hasKey (d : List (String × Value)) (k : String) : Bool :=
  d.any (fun p => p.1 == k)

/-- Python `d.pop(k, None)` restricted to its effect on the dict: dict keys
are unique, so removing the binding of `k` is filtering it out. -/
def eraseKey (d : List (String × Value)) (k : String) : List (String × Value) :=
  d.filter (fun p => p.1 != k)

/-- Python `d[k] = v`: replace the binding in place when `k` is present
(dict keys are unique), otherwise append a new binding at the end. -/
def setKey (d : List (String × Value)) (k : String) (v : Value) :
    List (String × Value) :=
  if hasKey d k then d.map (fun p => if p.1 == k then (k, v) else p)
  else d ++ [(k, v)]

/-- Assoc-list lookup for the `column_types` dict (string-valued). -/
def lookupTy (d : List (String × String)) (k : String) : Option String :=
  (d.find? (fun p => p.1 == k)).map Prod.snd

/-- Python `column_types.get(k, 'str')`. -/
def lookupTyD (d : List (String × String)) (k : String) : String :=
  (lookupTy d k).getD "str"

/-- Python `k in column_types`. -/
def hasTy (d : List (String × String)) (k : String) : Bool :=
  d.any (fun p => p.1 == k)

/-- Removing a key from the `column_types` dict. -/
def eraseTy (d : List (String × String)) (k : String) : List (String × String) :=
  d.filter (fun p => p.1 != k)

/-- Python `column_types[k] = v`. -/
def setTy (d : List (String × String)) (k : String) (v : String) :
    List (String × String) :=
  if hasTy d k then d.map (fun p => if p.1 == k then (k, v) else p)
  else d ++ [(k, v)]

/-! ### The data model: `Student` and the store (`StudentManager` state) -/

/-- One student record: `Student.data`, a dict from column name to value
(`student.py`). -/
structure Student where
  data : List (String × Value)
deriving DecidableEq, Repr

/-- The in-memory state of `StudentManager`: the schema (`columns` and
`column_types`) and the record list (`students`).  The backing-file path is
not modelled. -/
structure Store where
  columns : List String
  column_types : List (String × String)
  students : List Student
deriving DecidableEq, Repr

/-- The default column-type table hard-coded in `_load_data`
(`student_manager.py` lines 37-46). -/
def defaultColumnTypes : List (String × String) :=
  [("Name", "str"), ("Age", "int"), ("Email", "str"), ("Phone", "str"),
   ("Address", "str"), ("Class", "str"), ("Roll Number", "int"),
   ("Grades", "str")]

/-- `StudentManager._check_unique_id`: no existing record's `ID` value
equals the candidate id string.  (A record always carries an `ID` key in
this system; a record without one is treated as non-conflicting.) -/
def checkUniqueId (sts : List Student) (id_ : String) : Bool :=
  sts.all (fun s =>
    match lookupKey s.data "ID" with
    | some v => pyNe v (.vStr id_)
    | none => true)

/-- `StudentManager._check_unique_roll_number`: no existing record's
`Roll Number` value equals the candidate (`data.get` yields `None` for a
missing key, which compares unequal to any value). -/
def checkUniqueRoll (sts : List Student) (v : Value) : Bool :=
  sts.all (fun s =>
    match lookupKey s.data "Roll Number" with
    | some old => pyNe old v
    | none => true)

/-- Python `s.data.get("ID") == student_id` (a `str` compared against the
stored value). -/
def idMatches (s : Student) (id_ : String) : Bool :=
  match lookupKey s.data "ID" with
  | some v => pyEq v (.vStr id_)
  | none => false

/-! ### CRUD operations (`student_manager.py`)

Each interactive operation is modelled as a function of the values the user
eventually supplies.  `add_student` and the `Roll Number` branch of
`update_student` loop until their uniqueness guards accept the value, so an
oracle value that the guard rejects corresponds to an interaction that never
completes; such an operation is modelled as leaving the store unchanged
(`Option.getD` below / returning the input store). -/

/-- The per-column loop of `add_student` (lines 136-150): for every non-`ID`
column in schema order, store the validated value, with the `Roll Number`
value accepted only when unique among the existing records. -/
def buildDataLoop (sts : List Student) (vals : String → Value)
    (acc : List (String × Value)) : List String → Option (List (String × Value))
  | [] => some acc
  | c :: cols =>
      if c = "ID" then buildDataLoop sts vals acc cols
      else if c = "Roll Number" && !(checkUniqueRoll sts (vals c)) then none
      else buildDataLoop sts vals (setKey acc c (vals c)) cols

/-- Building the `student_data` dict in `add_student` (lines 120-151): `ID`
first, then one validated value per non-`ID` column in schema order. -/
def buildNewData (sts : List Student) (cols : List String) (id_ : String)
    (vals : String → Value) : Option (List (String × Value)) :=
  buildDataLoop sts vals [("ID", Value.vStr id_)] cols

/-- `StudentManager.add_student`: the id must be a nonempty digit string and
unique; the record is appended and the store saved.  `none` models an
interaction whose guards never accept the supplied values. -/
def addStudent (st : Store) (id_ : String) (vals : String → Value) :
    Option Store :=
  if id_.data.isEmpty || !(id_.data.all Char.isDigit) then none
  else if !(checkUniqueId st.students id_) then none
  else
    (buildNewData st.students st.columns id_ vals).map
      (fun d => { st with students := st.students ++ [⟨d⟩] })

/-- The replacement record built by `update_student` for the matched record:
every key except `ID` receives the freshly validated value for that key. -/
def updatedData (s : Student) (vals : String → Value) : List (String × Value) :=
  s.data.map (fun p => if p.1 == "ID" then p else (p.1, vals p.1))

/-- The `Roll Number` acceptance condition inside `update_student` (lines
182-190): the new value is accepted when it equals the record's old value or
is unique across all records (whose roll values are still the old ones at
that point). -/
def rollGuardUpd (sts : List Student) (s : Student) (vals : String → Value) :
    Bool :=
  match lookupKey s.data "Roll Number" with
  | none => true
  | some old =>
      pyEq (vals "Roll Number") old || checkUniqueRoll sts (vals "Roll Number")

/-- The recursion of `update_student` over the record list: the first record
whose `ID` matches is replaced.  Returns the new list when the interaction
completes (`none` otherwise) and whether a matching record was found. -/
def updateList (sts : List Student) (id_ : String) (vals : String → Value) :
    List Student → Option (List Student) × Bool
  | [] => (none, false)
  | s :: rest =>
      if idMatches s id_ then
        if rollGuardUpd sts s vals then (some (⟨updatedData s vals⟩ :: rest), true)
        else (none, true)
      else
        let r := updateList sts id_ vals rest
        ((r.1).map (s :: ·), r.2)

/-- The outcome of a store operation: the resulting store, whether
`_save_data` ran, and whether a record with the requested id was found
(`false` corresponds to the "No student found with ID ..." report). -/
structure StepOut where
  store : Store
  saved : Bool
  found : Bool
deriving DecidableEq, Repr

/-- `StudentManager.update_student`: if no record's `ID` matches, report
"not found" and change nothing; otherwise re-validate and replace every
non-`ID` field of the first matching record and save. -/
def updateStudent (st : Store) (id_ : String) (vals : String → Value) :
    StepOut :=
  match updateList st.students id_ vals st.students with
  | (some sts, _) => ⟨{ st with students := sts }, true, true⟩
  | (none, found) => ⟨st, false, found⟩

/-- `StudentManager.delete_student`: remove the first record whose `ID`
matches and save; report "not found" otherwise. -/
def deleteStudent (st : Store) (id_ : String) : StepOut :=
  match st.students.find? (fun s => idMatches s id_) with
  | some _ =>
      ⟨{ st with students := st.students.eraseP (fun s => idMatches s id_) },
        true, true⟩
  | none => ⟨st, false, false⟩

/-- A completed interactive record operation (claim C1 quantifies over
sequences of adds and updates). -/
inductive Op where
  | add (id_ : String) (vals : String → Value)
  | upd (id_ : String) (vals : String → Value)

/-- Running one operation; an interaction that never completes leaves the
store unchanged. -/
def applyOp (st : Store) : Op → Store
  | .add id_ vals => (addStudent st id_ vals).getD st
  | .upd id_ vals => (updateStudent st id_ vals).store

/-- Running a sequence of operations. -/
def applyOps (st : Store) (ops : List Op) : Store := ops.foldl applyOp st

/-! ### Python `float(...)` and `str(...)` on numbers

`validation.py` parses floats with Python's `float()` and the program renders
values back to text with `str()`.  Python's IEEE doubles are idealized as the
exact rationals denoted by the parsed literals; the modelled literal grammar
is `[sign] digits [. digits]` (at least one digit overall), the decimal core
of Python's float syntax. -/

/-- An optional leading sign; returns whether the value is negated and the
remaining characters. -/
def parseSign : List Char → Bool × List Char
  | [] => (false, [])
  | c :: r =>
      if c = '-' then (true, r)
      else if c = '+' then (false, r)
      else (false, c :: r)

/-- Negate when the parsed sign was `-`. -/
def applySign (neg : Bool) (q : Rat) : Rat := if neg then -q else q

/-- The body of the float grammar after the sign: an integer part, an
optional `.` and fractional digits, and nothing else. -/
def parseBody (neg : Bool) (l : List Char) : Option Rat :=
  match l.dropWhile Char.isDigit with
  | [] =>
      if (l.takeWhile Char.isDigit).isEmpty then none
      else some (applySign neg (charsToNat (l.takeWhile Char.isDigit)))
  | c :: frac =>
      if c = '.' then
        if frac.all Char.isDigit
            && !((l.takeWhile Char.isDigit).isEmpty && frac.isEmpty) then
          some (applySign neg ((charsToNat (l.takeWhile Char.isDigit) : Rat)
            + (charsToNat frac : Rat) / (10 : Rat) ^ frac.length))
        else none
      else none

/-- Python `float(s)` on the modelled literal grammar: `none` is the
`ValueError` outcome. -/
def parseFloat (s : String) : Option Rat :=
  parseBody (parseSign s.data).1 (parseSign s.data).2

/-- The smallest exponent `k ≤ d` with `d ∣ 10 ^ k`, when one exists (it
does exactly when `d` has only `2` and `5` as prime factors, which holds for
the denominator of every parsed float literal). -/
def pow10Exp (d : Nat) : Option Nat :=
  (List.range (d + 1)).find? (fun k => 10 ^ k % d == 0)

/-- Left-pad a digit string with zeros to length `k`. -/
def padZeros (k : Nat) (cs : List Char) : List Char :=
  List.replicate (k - cs.length) '0' ++ cs

/-- Decimal rendering of the nonnegative rational `n / d` once an exponent
`k` with `d ∣ 10 ^ k` is known: the integer part, a dot, and exactly `k`
fractional digits (just `.0` when `k = 0`). -/
def renderPos (n d k : Nat) : List Char :=
  if k = 0 then natToChars (n / d) ++ ['.', '0']
  else natToChars (n * 10 ^ k / d / 10 ^ k)
    ++ '.' :: padZeros k (natToChars (n * 10 ^ k / d % 10 ^ k))

/-- The character rendering behind `renderRat`. -/
def renderRatChars (q : Rat) : List Char :=
  (if q.num < 0 then ['-'] else [])
    ++ match pow10Exp q.den with
       | some k => renderPos q.num.natAbs q.den k
       | none => natToChars q.num.natAbs ++ '.' :: natToChars q.den

/-- Python `str(x)` for a float value, idealized on exact rationals with a
power-of-ten denominator: the terminating decimal expansion, with `.0` for
integral values just as Python prints floats.  (The final branch is
unreachable for any value the program produces; it keeps the function
total.) -/
def renderRat (q : Rat) : String := String.mk (renderRatChars q)

/-- Python `str(value)` for a stored value (used when `csv.writer`
stringifies the id cell, and to re-render a validated value). -/
def valueToStr : Value → String
  | .vInt n => if n < 0 then "-" ++ natToString n.natAbs else natToString n.natAbs
  | .vStr s => s
  | .vRat q => renderRat q

/-! ### Persistence codec (`_save_data` / `_load_data`)

A backing file is modelled at the decode level: the header row carries its
field count and the JSON-decode outcome of its second field, and each data
row carries its first field (the id cell, a string) and the decode outcome
of its JSON payload.  `json.dumps`/`json.loads` round-trip the encoded
structures, so the codec is modelled on the decoded shapes directly. -/

/-- Decode outcome of the header's column cell: a JSON array of strings, or
anything else (malformed text or a different JSON shape), which makes
`_load_data` abort. -/
inductive ColsCell where
  | arrStr (cols : List String)
  | bad
deriving DecidableEq, Repr

/-- Decode outcome of a data row's JSON payload: a JSON object of field
name to value, or text that `json.loads` rejects (the
`json.JSONDecodeError` branch). -/
inductive RecCell where
  | obj (fields : List (String × Value))
  | malformed
deriving DecidableEq, Repr

/-- A backing file: the header row (its field count and the decode outcome
of its column cell) and the data rows.  Blank physical lines, which the
loader skips, are not modelled. -/
structure CsvFile where
  headerLen : Nat
  colsCell : ColsCell
  rows : List (String × RecCell)
deriving DecidableEq, Repr

/-- `_save_data` for one record: the id cell is `str(data['ID'])` and the
payload is the JSON object of the full `data` dict; a record without an
`ID` key raises (`none`). -/
def saveRow (s : Student) : Option (String × RecCell) :=
  (lookupKey s.data "ID").map (fun v => (valueToStr v, RecCell.obj s.data))

/-- `StudentManager._save_data`: header row `["Columns", json.dumps(columns)]`
followed by one row per record.  `none` models the exception raised when a
record has no `ID` key (the real file is then truncated mid-write; no claim
depends on that partial file). -/
def saveData (st : Store) : Option CsvFile :=
  (st.students.mapM saveRow).map
    (fun rows => { headerLen := 2, colsCell := .arrStr st.columns, rows := rows })

/-- The legacy-spelling fix on the loaded column list (lines 51-53):
`RollNo` becomes `Roll Number` when the latter is absent. -/
def fixRollNoCols (cols : List String) : List String :=
  if cols.contains "RollNo" && !(cols.contains "Roll Number") then
    cols.map (fun c => if c = "RollNo" then "Roll Number" else c)
  else cols

/-- The legacy-spelling fix on one loaded record (lines 64-66):
`data['Roll Number'] = data.pop('RollNo')` removes the old binding and
appends the new key at the end of the dict. -/
def fixRollNoData (fields : List (String × Value)) : List (String × Value) :=
  if hasKey fields "RollNo" && !(hasKey fields "Roll Number") then
    match lookupKey fields "RollNo" with
    | some v => eraseKey fields "RollNo" ++ [("Roll Number", v)]
    | none => fields
  else fields

/-- Reconstructing one record on load (lines 58-72): apply the legacy fix,
drop any `ID` field from the payload, and rebuild the dict with the id cell
as its `ID` (first key).  `Student(ID=student_id, **student_data)` receives
the id as a string. -/
def loadRow : String × RecCell → Option Student
  | (id_, .obj fields) =>
      some ⟨("ID", Value.vStr id_) :: eraseKey (fixRollNoData fields) "ID"⟩
  | (_, .malformed) => none

/-- The row loop of `_load_data`: a row whose payload fails to decode is
reported and skipped, and loading continues with the next row. -/
def loadRows : List (String × RecCell) → List Student
  | [] => []
  | r :: rest =>
      match loadRow r with
      | some s => s :: loadRows rest
      | none => loadRows rest

/-- `StudentManager._load_data` on a file that exists: a header with fewer
than two fields, or whose column cell is not a JSON array of strings,
aborts with an empty store; otherwise the columns are the fixed-up decoded
list, the column types are reset to the default table, and the records are
the successfully decoded rows in file order. -/
def loadData (f : CsvFile) : Store :=
  if f.headerLen ≤ 1 then ⟨[], [], []⟩
  else
    match f.colsCell with
    | .bad => ⟨[], [], []⟩
    | .arrStr cols =>
        { columns := fixRollNoCols cols,
          column_types := defaultColumnTypes,
          students := loadRows f.rows }

/-! ### Schema operations (`add_column`, `delete_column`, `replace_column`)

The interactive menus pick positions/columns by number and confirm with
`y/n`; the completed interaction is modelled by its parameters.  A prompt
loop that re-asks forever on the supplied choice (an out-of-range position,
a protected column, a colliding name, an invalid type) is an interaction
that never completes and leaves the store unchanged. -/

/-- The position choice in `add_column` (menu options 1-3; option 3 carries
a 1-based index). -/
inductive ColPos where
  | start
  | finish
  | at_ (p : Nat)
deriving DecidableEq, Repr

/-- Inserting the new column name at the chosen position (lines 237-270):
choice 3 demands `1 ≤ p ≤ len + 1` (re-asking otherwise) unless the column
list is empty, in which case it appends. -/
def insertColumnName (cols : List String) (name : String) : ColPos →
    Option (List String)
  | .start => some (name :: cols)
  | .finish => some (cols ++ [name])
  | .at_ p =>
      if cols.length = 0 then some (cols ++ [name])
      else if 1 ≤ p ∧ p ≤ cols.length + 1 then some (cols.insertIdx (p - 1) name)
      else none

/-- `StudentManager.add_column`: rejects an empty (all-whitespace) or
duplicate name, inserts the column, normalizes the declared type (defaulting
to `str`), prompts a validated value of that type for every existing record,
and saves. -/
def addColumn (st : Store) (name : String) (pos : ColPos) (ty : String)
    (vals : Student → Value) : Store :=
  if pyStrip name = "" then st
  else if st.columns.contains name then st
  else
    match insertColumnName st.columns name pos with
    | none => st
    | some cols =>
        let nty := if ["str", "int", "float"].contains (pyLower (pyStrip ty))
                   then pyLower (pyStrip ty) else "str"
        { columns := cols,
          column_types := setTy st.column_types name nty,
          students := st.students.map (fun s => ⟨setKey s.data name (vals s)⟩) }

/-- `StudentManager.delete_column`: the chosen name must be a current
column and not one of the protected pair `{Roll Number, ID}`; after
confirmation the column, its declared type, and the field in every record
are removed, and the store saved. -/
def deleteColumn (st : Store) (name : String) (confirm : Bool) : Store :=
  if st.columns.isEmpty then st
  else if !(st.columns.contains name) then st
  else if name = "Roll Number" || name = "ID" then st
  else if !confirm then st
  else
    { columns := st.columns.erase name,
      column_types := eraseTy st.column_types name,
      students := st.students.map (fun s => ⟨eraseKey s.data name⟩) }

/-- `StudentManager.replace_column`: the column at the chosen index must not
be `ID` (the only protected column here); the new name must be nonempty and
not collide with an existing column; an explicit type change must name a
valid type.  After confirmation the column is renamed in place, the type
table updated, and each record's field moved to the new name — re-entered
under the new type when the declared type changed, carried over otherwise. -/
def replaceColumn (st : Store) (idx : Nat) (newName : String)
    (changeType : Bool) (newTy : String) (confirm : Bool)
    (vals : Student → Value) : Store :=
  if st.columns.isEmpty then st
  else
    match st.columns[idx]? with
    | none => st
    | some old =>
        if old = "ID" then st
        else if pyStrip newName = "" then st
        else if st.columns.contains newName then st
        else if changeType
            && !(["str", "int", "float"].contains (pyLower newTy)) then st
        else
          let curTy := lookupTyD st.column_types old
          let nty := if changeType then newTy else curTy
          if !confirm then st
          else
            { columns := st.columns.set idx newName,
              column_types :=
                if hasTy st.column_types old then
                  eraseTy (setTy st.column_types newName nty) old
                else setTy st.column_types newName nty,
              students := st.students.map (fun s =>
                match lookupKey s.data old with
                | none => s
                | some oldv =>
                    ⟨eraseKey
                      (setKey s.data newName
                        (if curTy ≠ nty then vals s else oldv)) old⟩) }

/-! ### Field validator (`validation.py`) -/

/-- The characters the email regex allows in the local part:
`[a-zA-Z0-9._%+-]`. -/
def isLocalChar (c : Char) : Bool :=
  c.isAlpha || c.isDigit || c = '.' || c = '_' || c = '%' || c = '+' || c = '-'

/-- The characters the email regex allows in the domain before the TLD dot:
`[a-zA-Z0-9.-]`. -/
def isDomainChar (c : Char) : Bool :=
  c.isAlpha || c.isDigit || c = '.' || c = '-'

/-- Python `s.split(sep, 1)` at the character level: the parts before and
after the first occurrence of `ch`, if it occurs. -/
def splitFirst (ch : Char) (l : List Char) : Option (List Char × List Char) :=
  match l.dropWhile (fun c => c != ch) with
  | [] => none
  | _ :: aft => some (l.takeWhile (fun c => c != ch), aft)

/-- The parts before and after the last `'.'`, if any (the unique way to
match `\.[a-zA-Z]{2,}$`, whose tail contains no dot). -/
def splitLastDot (l : List Char) : Option (List Char × List Char) :=
  match l.reverse.dropWhile (fun c => c != '.') with
  | [] => none
  | _ :: befr => some (befr.reverse, (l.reverse.takeWhile (fun c => c != '.')).reverse)

/-- The domain half of the regex `[a-zA-Z0-9.-]+\.[a-zA-Z]{2,}`: a matching
decomposition must split at the last dot, since the TLD part is dot-free. -/
def domainShape (dom : List Char) : Bool :=
  match splitLastDot dom with
  | none => false
  | some (x, y) =>
      !x.isEmpty && x.all isDomainChar && decide (2 ≤ y.length) && y.all Char.isAlpha

/-- The anchored regex `^[a-zA-Z0-9._%+-]+@[a-zA-Z0-9.-]+\.[a-zA-Z]{2,}$`
from line 68.  Neither character class contains `@`, so a match
decomposes at the unique `@`. -/
def emailRegexMatch (cs : List Char) : Bool :=
  match splitFirst '@' cs with
  | none => false
  | some (loc, dom) => !loc.isEmpty && loc.all isLocalChar && domainShape dom

/-- The allow-listed email domains (lines 84-88). -/
def validDomains : List String :=
  ["gmail.com", "hotmail.com", "yahoo.com", "outlook.com",
   "icloud.com", "protonmail.com", "aol.com", "mail.com",
   "zoho.com", "yandex.com", "gmx.com", "live.com"]

/-- Lowercasing a character list (Python `str.lower()` on ASCII). -/
def lowerChars (l : List Char) : List Char := l.map Char.toLower

/-- The full email check of the `str` branch (lines 58-109), in the source's
order: minimum length, `@` present, regex match, then username length
bounds, domain allow-list (case-insensitive), username charset, and total
length at most 254. -/
def emailOk (s : String) : Bool :=
  let cs := s.data
  if cs.length < 5 then false
  else if !(cs.contains '@') then false
  else if !emailRegexMatch cs then false
  else
    match splitFirst '@' cs with
    | none => false
    | some (user, dom) =>
        if user.length < 1 then false
        else if 64 < user.length then false
        else if !(validDomains.contains (String.mk (lowerChars dom))) then false
        else if !(user.all isLocalChar) then false
        else if 254 < cs.length then false
        else true

/-- `validation.validate_input`, with the error messages abstracted away:
`some v` is the `(True, v, None)` outcome and `none` any rejection.  Empty
input is rejected for every type; the `int` branch demands digits only and
applies the `age` / `roll number` / `grades` refinements keyed on the
lowercased field name; the `float` branch parses and demands a nonnegative
value; the `str` branch applies the `name` / `email` / `phone` / `address` /
`class` refinements; an unknown declared type is rejected. -/
def validateInput (col : String) (s : String) (ty : String) : Option Value :=
  if s = "" then none
  else if ty = "int" then
    if s.data.isEmpty || !(s.data.all Char.isDigit) then none
    else
      let v : Int := (charsToNat s.data : Int)
      if pyLower col = "age" then
        if v < 5 || 100 < v then none else some (.vInt v)
      else if pyLower col = "roll number" then
        if v < 1 then none
        else if 10 < numDigits v.natAbs then none
        else some (.vInt v)
      else if pyLower col = "grades" then
        if v < 0 || 100 < v then none else some (.vInt v)
      else some (.vInt v)
  else if ty = "float" then
    match parseFloat s with
    | none => none
    | some q => if q < 0 then none else some (.vRat q)
  else if ty = "str" then
    if pyLower col = "name" then
      if !(s.data.all (fun c => c.isAlpha || c.isWhitespace)) then none
      else if s.length < 2 then none
      else some (.vStr s)
    else if pyLower col = "email" then
      if emailOk s then some (.vStr s) else none
    else if pyLower col = "phone" then
      if !(s.data.all Char.isDigit) then none
      else if s.length < 10 then none
      else if 15 < s.length then none
      else some (.vStr s)
    else if pyLower col = "address" then
      if s.length < 10 then none
      else if !(s.data.any Char.isDigit) then none
      else if !(s.data.any Char.isAlpha) then none
      else some (.vStr s)
    else if pyLower col = "class" then
      if !(s.data.all (fun c => c.isAlpha || c.isDigit)) then none
      else if s.length < 2 then none
      else if 10 < s.length then none
      else some (.vStr s)
    else some (.vStr s)
  else none

/-! ### Helper lemmas -/

theorem updateList_of_no_match (sts : List Student) (id_ : String)
    (vals : String → Value) :
    ∀ l : List Student, (∀ s ∈ l, idMatches s id_ = false) →
      updateList sts id_ vals l = (none, false) := by
  intro l
  induction l with
  | nil => intro _; rfl
  | cons s rest ih =>
      intro h
      simp only [updateList, h s (by simp)]
      simp [ih (fun t ht => h t (by simp [ht]))]

theorem loadRows_eq_filterMap (rows : List (String × RecCell)) :
    loadRows rows = rows.filterMap loadRow := by
  induction rows with
  | nil => rfl
  | cons r rest ih =>
      simp only [loadRows, List.filterMap_cons]
      cases h : loadRow r <;> simp [h, ih]

theorem saveData_shape {st : Store} {f : CsvFile} (h : saveData st = some f) :
    f.headerLen = 2 ∧ f.colsCell = .arrStr st.columns := by
  unfold saveData at h
  cases hm : st.students.mapM saveRow with
  | none => rw [hm] at h; simp at h
  | some rows => rw [hm] at h; simp at h; rw [← h]; exact ⟨rfl, rfl⟩

/-! ### Claim C10: not-found atomicity of update and delete -/

/-- C10.  If no record carries the requested id, `update_student` and
`delete_student` both report "not found", leave the schema, the record list
and every record's values unchanged, and perform no save. -/
theorem not_found_atomic (st : Store) (id_ : String) (vals : String → Value)
    (h : st.students.all (fun s => !(idMatches s id_)) = true) :
    updateStudent st id_ vals = ⟨st, false, false⟩ ∧
    deleteStudent st id_ = ⟨st, false, false⟩ := by
  simp only [List.all_eq_true, Bool.not_eq_true'] at h
  constructor
  · unfold updateStudent
    rw [updateList_of_no_match st.students id_ vals st.students h]
  · unfold deleteStudent
    rw [List.find?_eq_none.mpr (by intro s hs; simp [h s hs])]

/-- Witness for C10 at a concrete store and an absent id. -/
theorem not_found_atomic_witness :
    (let st : Store := ⟨["Name"], defaultColumnTypes,
        [⟨[("ID", Value.vStr "1"), ("Name", Value.vStr "Ann")]⟩]⟩;
     st.students.all (fun s => !(idMatches s "7")) = true ∧
     updateStudent st "7" (fun _ => Value.vInt 0) = ⟨st, false, false⟩ ∧
     deleteStudent st "7" = ⟨st, false, false⟩) := by
  refine ⟨by decide, ?_, ?_⟩
  · exact (not_found_atomic _ "7" (fun _ => Value.vInt 0) (by decide)).1
  · exact (not_found_atomic _ "7" (fun _ => Value.vInt 0) (by decide)).2

/-! ### Claim C5: column declared types are not persisted -/

/-- C5.  The saved file records only column names and values; after a save
followed by a load the in-memory type table is exactly the hard-coded
default table, whatever types were in effect before, and any column outside
that table is treated as type `str` (the `column_types.get(column, 'str')`
default). -/
theorem types_not_persisted (st : Store) (f : CsvFile)
    (h : saveData st = some f) :
    (loadData f).column_types = defaultColumnTypes ∧
    ∀ c : String, defaultColumnTypes.all (fun p => p.1 != c) = true →
      lookupTyD (loadData f).column_types c = "str" := by
  obtain ⟨h1, h2⟩ := saveData_shape h
  have hload : (loadData f).column_types = defaultColumnTypes := by
    unfold loadData
    rw [h2]
    simp [h1]
  refine ⟨hload, ?_⟩
  intro c hc
  rw [hload]
  simp only [List.all_eq_true, bne_iff_ne, ne_eq] at hc
  unfold lookupTyD lookupTy
  rw [List.find?_eq_none.mpr (by intro p hp; simpa using hc p hp)]
  rfl

/-- Witness for C5: a store whose declared types differ wildly from the
default table, including an extra `GPA : float` column, loses them all on
reload. -/
theorem types_not_persisted_witness :
    (let st : Store := ⟨["Name", "GPA"], [("Name", "int"), ("GPA", "float")],
        [⟨[("ID", Value.vStr "1"), ("Name", Value.vStr "Ann"),
           ("GPA", Value.vRat 4)]⟩]⟩;
     ∃ f, saveData st = some f ∧
       (loadData f).column_types = defaultColumnTypes ∧
       lookupTyD (loadData f).column_types "GPA" = "str") := by
  have hsave : saveData ⟨["Name", "GPA"], [("Name", "int"), ("GPA", "float")],
      [⟨[("ID", Value.vStr "1"), ("Name", Value.vStr "Ann"),
         ("GPA", Value.vRat 4)]⟩]⟩ = some ⟨2, .arrStr ["Name", "GPA"],
      [("1", .obj [("ID", Value.vStr "1"), ("Name", Value.vStr "Ann"),
         ("GPA", Value.vRat 4)])]⟩ := by decide
  refine ⟨_, hsave, ?_, ?_⟩
  · exact (types_not_persisted _ _ hsave).1
  · exact (types_not_persisted _ _ hsave).2 "GPA" (by decide)

/-! ### Claim C8: malformed records are skipped, loading continues -/

/-- C8.  On a file with a valid header, a data row whose embedded JSON
fails to decode is skipped and loading continues: the loaded record list is
exactly the in-order image of the rows that decode (`loadRow` succeeds on
every decoded object row and fails exactly on the malformed ones). -/
theorem malformed_rows_skipped (f : CsvFile) (cols : List String)
    (h1 : 2 ≤ f.headerLen) (h2 : f.colsCell = .arrStr cols) :
    (loadData f).students = f.rows.filterMap loadRow ∧
    (∀ id_ fields, (loadRow (id_, .obj fields)).isSome = true) ∧
    (∀ id_, loadRow (id_, .malformed) = none) := by
  refine ⟨?_, fun _ _ => rfl, fun _ => rfl⟩
  unfold loadData
  rw [h2]
  have : ¬ f.headerLen ≤ 1 := by omega
  simp [this, loadRows_eq_filterMap]

/-- Witness for C8: a file whose middle row is malformed loads exactly the
two well-formed records, in order. -/
theorem malformed_rows_skipped_witness :
    (let f : CsvFile := ⟨2, .arrStr ["Name"],
        [("1", .obj [("Name", Value.vStr "Ann")]),
         ("2", .malformed),
         ("3", .obj [("Name", Value.vStr "Bob")])]⟩;
     2 ≤ f.headerLen ∧
     (loadData f).students = f.rows.filterMap loadRow ∧
     (loadData f).students =
       [⟨[("ID", Value.vStr "1"), ("Name", Value.vStr "Ann")]⟩,
        ⟨[("ID", Value.vStr "3"), ("Name", Value.vStr "Bob")]⟩]) := by
  refine ⟨by decide, ?_, by decide⟩
  exact (malformed_rows_skipped _ ["Name"] (by decide) rfl).1

/-! ### Small facts about the dict model -/

theorem hasKey_cons (k0 : String) (v0 : Value) (rest : List (String × Value))
    (k : String) :
    hasKey ((k0, v0) :: rest) k = ((k0 == k) || hasKey rest k) := by
  simp [hasKey]

theorem lookupKey_cons_pos {k0 k : String} (v0 : Value)
    (rest : List (String × Value)) (h : (k0 == k) = true) :
    lookupKey ((k0, v0) :: rest) k = some v0 := by
  unfold lookupKey
  rw [List.find?_cons_of_pos rest h]
  rfl

theorem lookupKey_cons_neg {k0 k : String} (v0 : Value)
    (rest : List (String × Value)) (h : (k0 == k) = false) :
    lookupKey ((k0, v0) :: rest) k = lookupKey rest k := by
  unfold lookupKey
  rw [List.find?_cons_of_neg rest (by simp [h])]

theorem eraseKey_cons_pos {k0 k : String} (v0 : Value)
    (rest : List (String × Value)) (h : (k0 == k) = true) :
    eraseKey ((k0, v0) :: rest) k = eraseKey rest k := by
  have hk : k0 = k := eq_of_beq h
  subst hk
  simp [eraseKey, List.filter_cons]

theorem eraseKey_cons_neg {k0 k : String} (v0 : Value)
    (rest : List (String × Value)) (h : (k0 == k) = false) :
    eraseKey ((k0, v0) :: rest) k = (k0, v0) :: eraseKey rest k := by
  have hb : ((k0, v0).1 != k) = true := by simp [bne, h]
  simp [eraseKey, List.filter_cons, hb]

theorem eraseKey_of_not_hasKey {d : List (String × Value)} {k : String}
    (h : hasKey d k = false) : eraseKey d k = d := by
  unfold eraseKey
  rw [List.filter_eq_self]
  intro p hp
  unfold hasKey at h
  rw [List.any_eq_false] at h
  simpa using h p hp

theorem hasKey_append (d e : List (String × Value)) (k : String) :
    hasKey (d ++ e) k = (hasKey d k || hasKey e k) := by
  simp [hasKey]

theorem hasKey_eraseKey_self (d : List (String × Value)) (k k' : String) :
    hasKey (eraseKey d k) k' = (hasKey d k' && k' != k) := by
  induction d with
  | nil => simp [hasKey, eraseKey]
  | cons p rest ih =>
      obtain ⟨k0, v0⟩ := p
      by_cases h : k0 = k
      · subst h
        rw [eraseKey_cons_pos v0 rest (by simp), ih, hasKey_cons]
        by_cases hkk : k' = k0
        · subst hkk
          simp
        · have h1 : (k0 == k') = false := by
            simp only [beq_eq_false_iff_ne, ne_eq]
            exact fun hx => hkk hx.symm
          simp [h1]
      · rw [eraseKey_cons_neg v0 rest (by simpa using h), hasKey_cons,
            hasKey_cons, ih]
        by_cases hkk : k0 = k'
        · subst hkk
          have h2 : (k0 != k) = true := by simpa using h
          simp [h2]
        · have h1 : (k0 == k') = false := by simpa using hkk
          simp [h1]

theorem lookupKey_isSome_iff (d : List (String × Value)) (k : String) :
    (lookupKey d k).isSome = hasKey d k := by
  induction d with
  | nil => rfl
  | cons p rest ih =>
      obtain ⟨k0, v0⟩ := p
      cases h : (k0 == k) with
      | true => rw [lookupKey_cons_pos v0 rest h, hasKey_cons, h]; rfl
      | false => rw [lookupKey_cons_neg v0 rest h, hasKey_cons, h, ih]; simp

/-! ### Claim C3: persistence round-trip -/

theorem fixRollNoData_cons_id (v0 : Value) (rest : List (String × Value)) :
    fixRollNoData (("ID", v0) :: rest) = ("ID", v0) :: fixRollNoData rest := by
  unfold fixRollNoData
  have h1 : (("ID" : String) == "RollNo") = false := by decide
  have h2 : (("ID" : String) == "Roll Number") = false := by decide
  rw [hasKey_cons, hasKey_cons, lookupKey_cons_neg v0 rest h1,
      eraseKey_cons_neg v0 rest h1, h1, h2]
  simp only [Bool.false_or]
  by_cases hc : (hasKey rest "RollNo" && !hasKey rest "Roll Number") = true
  · rw [if_pos hc, if_pos hc]
    cases hl : lookupKey rest "RollNo" with
    | some v => rfl
    | none =>
        exfalso
        have hs := lookupKey_isSome_iff rest "RollNo"
        rw [hl] at hs
        simp only [Option.isSome_none] at hs
        rw [← hs] at hc
        simp at hc
  · rw [if_neg hc, if_neg hc]

theorem hasKey_fixRollNoData (rest : List (String × Value))
    (hid : hasKey rest "ID" = false) :
    hasKey (fixRollNoData rest) "ID" = false := by
  unfold fixRollNoData
  by_cases hc : (hasKey rest "RollNo" && !hasKey rest "Roll Number") = true
  · rw [if_pos hc]
    cases hl : lookupKey rest "RollNo" with
    | some v =>
        rw [hasKey_append, hasKey_eraseKey_self, hid]
        simp [hasKey]
    | none => exact hid
  · rw [if_neg hc]
    exact hid

/-- For a record of the well-formed shape (`ID` first, bound to a string,
not repeated), the loaded image of its saved row is exactly the
legacy-fixed record. -/
theorem loadRow_saveRow {s : Student} {id_ : String}
    {rest : List (String × Value)}
    (hshape : s.data = ("ID", Value.vStr id_) :: rest)
    (hid : hasKey rest "ID" = false) :
    saveRow s = some (id_, .obj s.data) ∧
    loadRow (id_, .obj s.data) = some ⟨fixRollNoData s.data⟩ := by
  have hsave : saveRow s = some (id_, .obj s.data) := by
    unfold saveRow
    rw [hshape, lookupKey_cons_pos _ _ (by decide)]
    simp [valueToStr]
  refine ⟨hsave, ?_⟩
  have hred : loadRow (id_, .obj s.data)
      = some ⟨("ID", Value.vStr id_) :: eraseKey (fixRollNoData s.data) "ID"⟩ := rfl
  rw [hred, hshape, fixRollNoData_cons_id,
      eraseKey_cons_pos _ _ (by decide),
      eraseKey_of_not_hasKey (hasKey_fixRollNoData rest hid)]

/-- C3.  Saving a store and loading the produced file yields the same
column list in the same order and the same records (ids and field maps) in
the same order, modulo the `RollNo` → `Roll Number` legacy normalization
performed by the loader.  Records are required to be of the shape every
code path produces: the `ID` key first, bound to a string, and not
repeated. -/
theorem save_load_round_trip (st : Store)
    (h : ∀ s ∈ st.students, ∃ id_ rest,
      s.data = ("ID", Value.vStr id_) :: rest ∧ hasKey rest "ID" = false) :
    ∃ f, saveData st = some f ∧
      (loadData f).columns = fixRollNoCols st.columns ∧
      (loadData f).students = st.students.map (fun s => ⟨fixRollNoData s.data⟩) := by
  have hrows : ∀ l : List Student, (∀ s ∈ l, ∃ id_ rest,
      s.data = ("ID", Value.vStr id_) :: rest ∧ hasKey rest "ID" = false) →
      ∃ rows, l.mapM saveRow = some rows ∧
        loadRows rows = l.map (fun s => ⟨fixRollNoData s.data⟩) := by
    intro l
    induction l with
    | nil => intro _; exact ⟨[], rfl, rfl⟩
    | cons s rest ih =>
        intro hl
        obtain ⟨id_, r, hshape, hid⟩ := hl s (by simp)
        obtain ⟨rows, hrows, hload⟩ := ih (fun t ht => hl t (by simp [ht]))
        obtain ⟨hsave, hlr⟩ := loadRow_saveRow hshape hid
        refine ⟨(id_, .obj s.data) :: rows, ?_, ?_⟩
        · rw [List.mapM_cons, hsave, hrows]; rfl
        · simp only [loadRows, hlr, List.map_cons, hload]
  obtain ⟨rows, hm, hl⟩ := hrows st.students h
  refine ⟨⟨2, .arrStr st.columns, rows⟩, ?_, ?_, ?_⟩
  · unfold saveData
    rw [hm]
    rfl
  · unfold loadData
    simp
  · unfold loadData
    simpa using hl

/-- Witness for C3: a concrete store with a legacy `RollNo` column
round-trips to itself with the column and field renamed. -/
theorem save_load_round_trip_witness :
    (let st : Store := ⟨["Name", "RollNo"], defaultColumnTypes,
        [⟨[("ID", Value.vStr "1"), ("Name", Value.vStr "Ann"),
           ("RollNo", Value.vInt 5)]⟩]⟩;
     ∃ f, saveData st = some f ∧
       (loadData f).columns = fixRollNoCols st.columns ∧
       (loadData f).students = st.students.map (fun s => ⟨fixRollNoData s.data⟩)) := by
  exact save_load_round_trip _ (by
    intro s hs
    refine ⟨"1", [("Name", Value.vStr "Ann"), ("RollNo", Value.vInt 5)], ?_, by decide⟩
    simp only [List.mem_singleton] at hs
    rw [hs])

/-! ### Claim C4: column-protection asymmetry -/

/-- A concrete store used to instantiate the schema-operation theorems. -/
def egStore : Store :=
  ⟨["ID", "Roll Number", "GPA"],
   [("Roll Number", "int"), ("GPA", "str")],
   [⟨[("ID", Value.vStr "1"), ("Roll Number", Value.vInt 10),
      ("GPA", Value.vStr "A")]⟩]⟩

/-- C4.  `delete_column` refuses both `ID` and `Roll Number` (whether or
not they are current columns) and succeeds on any other existing column
once confirmed, while `replace_column` protects only `ID`: any other chosen
column — `Roll Number` included — is renamed/retyped once the remaining
inputs are acceptable.  So `Roll Number` can be replaced but never
deleted. -/
theorem column_protection (st : Store) (name newName newTy : String)
    (idx : Nat) (cf ct : Bool) (vals : Student → Value) :
    ((name = "ID" ∨ name = "Roll Number") → deleteColumn st name cf = st)
    ∧ (name ∈ st.columns → name ≠ "ID" → name ≠ "Roll Number" →
        deleteColumn st name true =
          { columns := st.columns.erase name,
            column_types := eraseTy st.column_types name,
            students := st.students.map (fun s => ⟨eraseKey s.data name⟩) })
    ∧ (st.columns[idx]? = some "ID" →
        replaceColumn st idx newName ct newTy cf vals = st)
    ∧ (∀ old, st.columns[idx]? = some old → old ≠ "ID" →
        pyStrip newName ≠ "" → st.columns.contains newName = false →
        (ct = true → ["str", "int", "float"].contains (pyLower newTy) = true) →
        replaceColumn st idx newName ct newTy true vals =
          { columns := st.columns.set idx newName,
            column_types :=
              (if hasTy st.column_types old then
                eraseTy (setTy st.column_types newName
                  (if ct then newTy else lookupTyD st.column_types old)) old
              else setTy st.column_types newName
                  (if ct then newTy else lookupTyD st.column_types old)),
            students := st.students.map (fun s =>
              match lookupKey s.data old with
              | none => s
              | some oldv =>
                  ⟨eraseKey
                    (setKey s.data newName
                      (if lookupTyD st.column_types old
                          ≠ (if ct then newTy else lookupTyD st.column_types old)
                       then vals s else oldv)) old⟩) }) := by
  refine ⟨?_, ?_, ?_, ?_⟩
  · intro hname
    unfold deleteColumn
    by_cases h0 : st.columns.isEmpty = true
    · rw [if_pos h0]
    · rw [if_neg h0]
      cases h1 : st.columns.contains name with
      | false => simp
      | true =>
          have h2 : (name = "Roll Number" || name = "ID") = true := by
            rcases hname with h | h <;> simp [h]
          simp only [Bool.not_true, Bool.false_eq_true, if_false, h2, if_true]
  · intro hmem hid hroll
    unfold deleteColumn
    have h0 : st.columns.isEmpty = false := by
      cases hc : st.columns with
      | nil => rw [hc] at hmem; cases hmem
      | cons a l => rfl
    have h1 : st.columns.contains name = true := by
      simpa [List.contains] using hmem
    rw [h0, h1]
    simp only [Bool.not_true, Bool.false_eq_true, if_false]
    have h3 : (name = "Roll Number" || name = "ID") = false := by
      simp [hid, hroll]
    rw [h3]
    simp
  · intro hidx
    unfold replaceColumn
    by_cases h0 : st.columns.isEmpty = true
    · rw [if_pos h0]
    · rw [if_neg h0, hidx]
      simp
  · intro old hidx hid hnn hcol hty
    unfold replaceColumn
    have h0 : st.columns.isEmpty = false := by
      cases hc : st.columns with
      | nil => rw [hc] at hidx; cases hidx
      | cons a l => rfl
    rw [h0, hidx]
    simp only [Bool.false_eq_true, if_false]
    rw [if_neg hid, if_neg hnn, hcol]
    have hty' : (ct && !(["str", "int", "float"].contains (pyLower newTy)))
        = false := by
      cases hct : ct with
      | false => rfl
      | true => rw [hty hct]; rfl
    simp only [Bool.not_false, hty', Bool.false_eq_true, if_false, if_true,
      Bool.not_true]

/-- Witness for C4 at `egStore`: `Roll Number` cannot be deleted but can be
renamed, while `GPA` can be deleted and `ID` blocks replacement. -/
theorem column_protection_witness :
    deleteColumn egStore "Roll Number" true = egStore ∧
    deleteColumn egStore "ID" true = egStore ∧
    deleteColumn egStore "GPA" true =
      { columns := ["ID", "Roll Number"],
        column_types := [("Roll Number", "int")],
        students := [⟨[("ID", Value.vStr "1"),
                       ("Roll Number", Value.vInt 10)]⟩] } ∧
    replaceColumn egStore 0 "Code" false "" true (fun _ => Value.vInt 0)
      = egStore ∧
    replaceColumn egStore 1 "Roll No 2" false "" true (fun _ => Value.vInt 0) =
      { columns := ["ID", "Roll No 2", "GPA"],
        column_types := [("GPA", "str"), ("Roll No 2", "int")],
        students := [⟨[("ID", Value.vStr "1"), ("GPA", Value.vStr "A"),
                       ("Roll No 2", Value.vInt 10)]⟩] } := by
  refine ⟨?_, ?_, ?_, ?_, ?_⟩
  · exact (column_protection egStore "Roll Number" "" "" 0 true false
      (fun _ => Value.vInt 0)).1 (Or.inr rfl)
  · exact (column_protection egStore "ID" "" "" 0 true false
      (fun _ => Value.vInt 0)).1 (Or.inl rfl)
  · have h := (column_protection egStore "GPA" "" "" 0 true false
      (fun _ => Value.vInt 0)).2.1 (by decide) (by decide) (by decide)
    rw [h]
    decide
  · exact (column_protection egStore "" "Code" "" 0 true false
      (fun _ => Value.vInt 0)).2.2.1 (by decide)
  · have h := (column_protection egStore "" "Roll No 2" "" 1 true false
      (fun _ => Value.vInt 0)).2.2.2 "Roll Number" (by decide) (by decide)
      (by decide) (by decide) (by simp)
    rw [h]
    decide

/-! ### Claim C2: schema-consistency of the column operations -/

/-- A store in which every record's key set is exactly the schema's column
set. -/
def keysMatch (st : Store) : Prop :=
  ∀ s ∈ st.students, ∀ k : String, hasKey s.data k = true ↔ k ∈ st.columns

theorem hasKey_map_set (d : List (String × Value)) (k : String) (v : Value)
    (k' : String) :
    hasKey (d.map (fun p => if p.1 == k then (k, v) else p)) k' = hasKey d k' := by
  induction d with
  | nil => rfl
  | cons p rest ih =>
      obtain ⟨k0, v0⟩ := p
      by_cases h : (k0 == k) = true
      · have hk : k0 = k := eq_of_beq h
        subst hk
        simp only [List.map_cons, if_pos h, hasKey_cons, ih]
      · simp only [List.map_cons, if_neg h, hasKey_cons, ih]

theorem hasKey_setKey (d : List (String × Value)) (k : String) (v : Value)
    (k' : String) :
    hasKey (setKey d k v) k' = (hasKey d k' || (k == k')) := by
  unfold setKey
  by_cases h : hasKey d k = true
  · rw [if_pos h, hasKey_map_set]
    by_cases hk : k = k'
    · subst hk
      simp [h]
    · have hb : (k == k') = false := by simpa using hk
      simp [hb]
  · rw [if_neg h, hasKey_append]
    simp [hasKey]

theorem insertColumnName_mem {cols : List String} {name : String} {pos : ColPos}
    {cols' : List String} (h : insertColumnName cols name pos = some cols') :
    ∀ k, k ∈ cols' ↔ k = name ∨ k ∈ cols := by
  intro k
  cases pos with
  | start =>
      simp only [insertColumnName, Option.some_inj] at h
      subst h
      simp
  | finish =>
      simp only [insertColumnName, Option.some_inj] at h
      subst h
      simp [or_comm]
  | at_ p =>
      simp only [insertColumnName] at h
      by_cases h0 : cols.length = 0
      · rw [if_pos h0, Option.some_inj] at h
        subst h
        simp [or_comm]
      · rw [if_neg h0] at h
        by_cases h1 : 1 ≤ p ∧ p ≤ cols.length + 1
        · rw [if_pos h1, Option.some_inj] at h
          subst h
          exact List.mem_insertIdx (by omega)
        · rw [if_neg h1] at h
          cases h

theorem mem_set_iff_of_nodup :
    ∀ (l : List String) (i : Nat) (old a : String), l.Nodup →
      l[i]? = some old → a ∉ l → ∀ k,
      (k ∈ l.set i a ↔ (k ∈ l ∧ k ≠ old) ∨ k = a)
  | [], i, old, a, _, hi, _, k => by simp at hi
  | x :: xs, 0, old, a, hnd, hi, ha, k => by
      rw [List.getElem?_cons_zero, Option.some_inj] at hi
      subst hi
      have hxs : x ∉ xs := (List.nodup_cons.mp hnd).1
      have hax : a ≠ x ∧ a ∉ xs := by
        constructor
        · intro hx; exact ha (by simp [hx])
        · intro hx; exact ha (by simp [hx])
      show k ∈ a :: xs ↔ _
      simp only [List.mem_cons]
      constructor
      · rintro (rfl | hk)
        · right; rfl
        · left
          exact ⟨Or.inr hk, fun hko => hxs (hko ▸ hk)⟩
      · rintro (⟨hk | hk, hko⟩ | rfl)
        · exact absurd hk hko
        · right; exact hk
        · left; rfl
  | x :: xs, i + 1, old, a, hnd, hi, ha, k => by
      rw [List.getElem?_cons_succ] at hi
      have hxs : x ∉ xs := (List.nodup_cons.mp hnd).1
      have hold : old ∈ xs := List.getElem?_mem hi
      have hxo : x ≠ old := fun hx => hxs (hx ▸ hold)
      have ha' : a ∉ xs := fun hx => ha (by simp [hx])
      have ih := mem_set_iff_of_nodup xs i old a (List.nodup_cons.mp hnd).2
        hi ha' k
      show k ∈ x :: xs.set i a ↔ _
      simp only [List.mem_cons]
      rw [ih]
      constructor
      · rintro (rfl | ⟨hk, hko⟩ | rfl)
        · exact Or.inl ⟨Or.inl rfl, hxo⟩
        · exact Or.inl ⟨Or.inr hk, hko⟩
        · exact Or.inr rfl
      · rintro (⟨hk | hk, hko⟩ | rfl)
        · exact Or.inl hk
        · exact Or.inr (Or.inl ⟨hk, hko⟩)
        · exact Or.inr (Or.inr rfl)

/-- C2.  From any store in which every record's key set equals the schema's
column set (names unique within a schema, per the data model), one
`add_column`, `delete_column` or `replace_column` operation — completed or
refused — leaves every record's key set equal to the resulting schema's
column set. -/
theorem schema_consistency (st : Store) (hnd : st.columns.Nodup)
    (h : keysMatch st) (name newName ty newTy : String) (pos : ColPos)
    (idx : Nat) (ct cf : Bool) (vals vals' : Student → Value) :
    keysMatch (addColumn st name pos ty vals) ∧
    keysMatch (deleteColumn st name cf) ∧
    keysMatch (replaceColumn st idx newName ct newTy cf vals') := by
  refine ⟨?_, ?_, ?_⟩
  · unfold addColumn
    by_cases h1 : pyStrip name = ""
    · rw [if_pos h1]; exact h
    · rw [if_neg h1]
      cases h2 : st.columns.contains name with
      | true => rw [if_pos rfl]; exact h
      | false =>
          rw [if_neg (by simp)]
          cases hins : insertColumnName st.columns name pos with
          | none => exact h
          | some cols =>
              intro s hs k
              simp only [List.mem_map] at hs
              obtain ⟨t, ht, rfl⟩ := hs
              show hasKey (setKey t.data name _) k = true ↔ k ∈ cols
              rw [hasKey_setKey, Bool.or_eq_true, insertColumnName_mem hins k,
                h t ht k]
              constructor
              · rintro (hmem | hb)
                · exact Or.inr hmem
                · exact Or.inl (eq_of_beq hb).symm
              · rintro (rfl | hmem)
                · exact Or.inr (by simp)
                · exact Or.inl hmem
  · unfold deleteColumn
    by_cases h0 : st.columns.isEmpty = true
    · rw [if_pos h0]; exact h
    · rw [if_neg h0]
      cases h1 : st.columns.contains name with
      | false => rw [if_pos (by decide)]; exact h
      | true =>
          rw [if_neg (by decide)]
          by_cases h2 : (name = "Roll Number" || name = "ID") = true
          · rw [if_pos h2]; exact h
          · rw [if_neg h2]
            cases cf with
            | false => rw [if_pos (by decide)]; exact h
            | true =>
                rw [if_neg (by decide)]
                intro s hs k
                simp only [List.mem_map] at hs
                obtain ⟨t, ht, rfl⟩ := hs
                show hasKey (eraseKey t.data name) k = true
                  ↔ k ∈ st.columns.erase name
                rw [hasKey_eraseKey_self, Bool.and_eq_true, h t ht k,
                  List.Nodup.mem_erase_iff hnd]
                constructor
                · rintro ⟨hm, hb⟩
                  exact ⟨by simpa using hb, hm⟩
                · rintro ⟨hkn, hm⟩
                  exact ⟨hm, by simpa using hkn⟩
  · unfold replaceColumn
    by_cases h0 : st.columns.isEmpty = true
    · rw [if_pos h0]; exact h
    · rw [if_neg h0]
      split
      · exact h
      · rename_i old hidx
        by_cases hid : old = "ID"
        · rw [if_pos hid]; exact h
        · rw [if_neg hid]
          by_cases hnn : pyStrip newName = ""
          · rw [if_pos hnn]; exact h
          · rw [if_neg hnn]
            cases hcol : st.columns.contains newName with
            | true => rw [if_pos rfl]; exact h
            | false =>
                rw [if_neg (by simp)]
                cases hty : (ct && !(["str", "int", "float"].contains
                    (pyLower newTy))) with
                | true => rw [if_pos rfl]; exact h
                | false =>
                    rw [if_neg (by simp)]
                    cases cf with
                    | false => rw [if_pos (by decide)]; exact h
                    | true =>
                        rw [if_neg (by decide)]
                        have hmemold : old ∈ st.columns :=
                          List.getElem?_mem hidx
                        have hanew : newName ∉ st.columns := by
                          intro hx
                          have h2 : st.columns.contains newName = true :=
                            List.elem_iff.mpr hx
                          rw [hcol] at h2
                          cases h2
                        intro s hs k
                        simp only [List.mem_map] at hs
                        obtain ⟨t, ht, rfl⟩ := hs
                        have hkold : hasKey t.data old = true :=
                          (h t ht old).mpr hmemold
                        have hlook : ∃ v, lookupKey t.data old = some v := by
                          have hi := lookupKey_isSome_iff t.data old
                          rw [hkold] at hi
                          exact Option.isSome_iff_exists.mp hi
                        obtain ⟨v, hv⟩ := hlook
                        rw [hv]
                        show hasKey (eraseKey (setKey t.data newName _) old) k
                            = true ↔ k ∈ st.columns.set idx newName
                        rw [hasKey_eraseKey_self, hasKey_setKey,
                          Bool.and_eq_true, Bool.or_eq_true, h t ht k,
                          mem_set_iff_of_nodup st.columns idx old newName hnd
                            hidx hanew k]
                        constructor
                        · rintro ⟨hm | hb, hbo⟩
                          · exact Or.inl ⟨hm, by simpa using hbo⟩
                          · exact Or.inr (eq_of_beq hb).symm
                        · rintro (⟨hm, hko⟩ | hke)
                          · exact ⟨Or.inl hm, by simpa using hko⟩
                          · refine ⟨Or.inr (by simp [hke]), ?_⟩
                            have hno : k ≠ old := by
                              rw [hke]
                              exact fun hx => hanew (hx ▸ hmemold)
                            simpa using hno

/-- A store whose single record's key set equals its column set, for
instantiating the schema-consistency theorem. -/
def c2Store : Store :=
  ⟨["ID", "Name", "Roll Number"], defaultColumnTypes,
   [⟨[("ID", Value.vStr "1"), ("Name", Value.vStr "Ann"),
      ("Roll Number", Value.vInt 10)]⟩]⟩

theorem c2Store_keysMatch : keysMatch c2Store := by
  intro s hs k
  simp only [c2Store, List.mem_singleton] at hs
  subst hs
  constructor
  · intro hb
    simp only [hasKey, List.any_cons, List.any_nil, Bool.or_eq_true,
      Bool.or_false] at hb
    rcases hb with h1 | h1 | h1
    · rw [← eq_of_beq h1]; decide
    · rw [← eq_of_beq h1]; decide
    · rw [← eq_of_beq h1]; decide
  · intro hm
    rcases List.mem_cons.mp hm with rfl | hm
    · decide
    rcases List.mem_cons.mp hm with rfl | hm
    · decide
    rcases List.mem_cons.mp hm with rfl | hm
    · decide
    · cases hm

/-- Witness for C2 at `c2Store`: the invariant survives adding a `GPA`
column at the end, deleting `Name`, and renaming `Roll Number`. -/
theorem schema_consistency_witness :
    c2Store.columns.Nodup ∧ keysMatch c2Store ∧
    keysMatch (addColumn c2Store "GPA" .finish "float" (fun _ => Value.vRat 4)) ∧
    keysMatch (deleteColumn c2Store "Name" true) ∧
    keysMatch (replaceColumn c2Store 2 "Roll No 2" false "" true
      (fun _ => Value.vInt 0)) := by
  have hnd : c2Store.columns.Nodup := by decide
  have h := schema_consistency c2Store hnd c2Store_keysMatch "GPA" "Roll No 2"
    "float" "" .finish 2 false true (fun _ => Value.vRat 4)
    (fun _ => Value.vInt 0)
  have h2 := schema_consistency c2Store hnd c2Store_keysMatch "Name" "x" "str"
    "" .finish 0 false true (fun _ => Value.vRat 4) (fun _ => Value.vInt 0)
  exact ⟨hnd, c2Store_keysMatch, h.1, h2.2.1, h.2.2⟩

/-! ### Claim C9: roll-number validation bounds -/

/-- C9.  For a field named `roll number` (case-insensitively) declared
`Integer`, validation succeeds exactly when the stripped input is a
nonempty string of decimal digits whose integer value is at least 1 and at
most 10 digits long (the digit count of the parsed value, per
`len(str(value))`), and the produced value is that integer. -/
theorem roll_number_bounds (col raw : String)
    (h : pyLower col = "roll number") :
    (∀ v, validateInput col (pyStrip raw) "int" = some v →
       v = Value.vInt (charsToNat (pyStrip raw).data)) ∧
    ((validateInput col (pyStrip raw) "int").isSome = true ↔
      ((pyStrip raw).data ≠ [] ∧ (pyStrip raw).data.all Char.isDigit = true ∧
       1 ≤ charsToNat (pyStrip raw).data ∧
       numDigits (charsToNat (pyStrip raw).data) ≤ 10)) := by
  generalize (pyStrip raw) = s
  unfold validateInput
  rw [h]
  by_cases h0 : s = ""
  · rw [if_pos h0]
    constructor
    · intro v hv; cases hv
    constructor
    · intro hv; cases hv
    · rintro ⟨hne, _⟩
      exact absurd (by rw [h0]) hne
  · rw [if_neg h0, if_pos rfl]
    have hne : s.data ≠ [] := by
      intro hx
      exact h0 (String.ext (by rw [hx]))
    have hem : s.data.isEmpty = false := by
      cases hd : s.data with
      | nil => exact absurd hd hne
      | cons a l => rfl
    cases hdig : s.data.all Char.isDigit with
    | false =>
        rw [if_pos (by rw [hem]; rfl)]
        constructor
        · intro v hv; cases hv
        constructor
        · intro hv; cases hv
        · rintro ⟨_, hd, _⟩
          cases hd
    | true =>
        rw [if_neg (by rw [hem]; decide)]
        rw [if_neg (by decide : ¬("roll number" : String) = "age"),
          if_pos rfl]
        by_cases hlt : ((charsToNat s.data : Int)) < 1
        · rw [if_pos hlt]
          constructor
          · intro v hv; cases hv
          constructor
          · intro hv; cases hv
          · rintro ⟨_, _, hge, _⟩
            exact absurd hlt (by omega)
        · rw [if_neg hlt]
          have habs : ((charsToNat s.data : Int)).natAbs = charsToNat s.data :=
            Int.natAbs_ofNat _
          by_cases hlen : 10 < numDigits ((charsToNat s.data : Int)).natAbs
          · rw [if_pos hlen]
            constructor
            · intro v hv; cases hv
            constructor
            · intro hv; cases hv
            · rintro ⟨_, _, _, hd10⟩
              rw [habs] at hlen
              omega
          · rw [if_neg hlen]
            constructor
            · intro v hv
              simpa using hv.symm
            constructor
            · intro _
              rw [habs] at hlen
              exact ⟨hne, rfl, by omega, by omega⟩
            · intro _
              rfl

/-- Witness for C9: `"0042"` validates as roll number 42. -/
theorem roll_number_bounds_witness :
    pyLower "Roll Number" = "roll number" ∧
    validateInput "Roll Number" (pyStrip " 0042 ") "int"
      = some (Value.vInt 42) ∧
    ((validateInput "Roll Number" (pyStrip "0") "int").isSome = true ↔
      ((pyStrip "0").data ≠ [] ∧ (pyStrip "0").data.all Char.isDigit = true ∧
       1 ≤ charsToNat (pyStrip "0").data ∧
       numDigits (charsToNat (pyStrip "0").data) ≤ 10)) := by
  refine ⟨by decide, ?_, ?_⟩
  · have h := (roll_number_bounds "Roll Number" " 0042 " (by decide)).1
    have hv : (validateInput "Roll Number" (pyStrip " 0042 ") "int").isSome
        = true := by decide
    obtain ⟨v, hv'⟩ := Option.isSome_iff_exists.mp hv
    rw [hv', h v hv']
    decide
  · exact (roll_number_bounds "Roll Number" "0" (by decide)).2

/-! ### Claim C6: email validation

Character-level facts about `Char.toLower` needed to reason about the
case-insensitive domain comparison. -/

theorem char_eq_of_toNat {a b : Char} (h : a.toNat = b.toNat) : a = b :=
  Char.ext (UInt32.ext h)

theorem charOfNat_toNat {n : Nat} (h : n < 55296) : (Char.ofNat n).toNat = n := by
  unfold Char.ofNat
  rw [dif_pos (Or.inl h)]
  rfl

theorem toLower_toNat (c : Char) :
    (Char.toLower c).toNat
      = if 65 ≤ c.toNat ∧ c.toNat ≤ 90 then c.toNat + 32 else c.toNat := by
  unfold Char.toLower
  by_cases h : 65 ≤ c.toNat ∧ c.toNat ≤ 90
  · rw [if_pos h, if_pos h]
    exact charOfNat_toNat (by omega)
  · rw [if_neg h, if_neg h]

theorem isDigit_char (c : Char) :
    c.isDigit = (decide (48 ≤ c.toNat) && decide (c.toNat ≤ 57)) := rfl

theorem isAlpha_char (c : Char) :
    c.isAlpha = ((decide (65 ≤ c.toNat) && decide (c.toNat ≤ 90))
      || (decide (97 ≤ c.toNat) && decide (c.toNat ≤ 122))) := rfl

theorem isDigit_toLower (c : Char) : (Char.toLower c).isDigit = c.isDigit := by
  rw [isDigit_char, isDigit_char, Bool.eq_iff_iff]
  simp only [Bool.and_eq_true, decide_eq_true_eq, toLower_toNat]
  split <;> omega

theorem isAlpha_toLower (c : Char) : (Char.toLower c).isAlpha = c.isAlpha := by
  rw [isAlpha_char, isAlpha_char, Bool.eq_iff_iff]
  simp only [Bool.or_eq_true, Bool.and_eq_true, decide_eq_true_eq, toLower_toNat]
  split <;> omega

theorem toLower_eq_symbol {c t : Char}
    (ht : ¬(97 ≤ t.toNat ∧ t.toNat ≤ 122) ∧ ¬(65 ≤ t.toNat ∧ t.toNat ≤ 90)) :
    (Char.toLower c = t) ↔ c = t := by
  constructor
  · intro h
    apply char_eq_of_toNat
    have h2 := congrArg Char.toNat h
    rw [toLower_toNat] at h2
    split at h2
    · omega
    · exact h2
  · intro h
    subst h
    apply char_eq_of_toNat
    rw [toLower_toNat]
    split
    · omega
    · rfl

theorem beq_dot_toLower (c : Char) :
    (Char.toLower c == '.') = (c == '.') := by
  rw [Bool.eq_iff_iff]
  simp only [beq_iff_eq]
  exact toLower_eq_symbol (by decide)

theorem bne_dot_toLower (c : Char) :
    (Char.toLower c != '.') = (c != '.') := by
  simp only [bne, beq_dot_toLower]

theorem isDomainChar_toLower (c : Char) :
    isDomainChar (Char.toLower c) = isDomainChar c := by
  unfold isDomainChar
  rw [isAlpha_toLower, isDigit_toLower]
  have hdot : (decide (Char.toLower c = '.')) = (decide (c = '.')) := by
    rw [Bool.eq_iff_iff]
    simp only [decide_eq_true_eq]
    exact toLower_eq_symbol (by decide)
  have hdash : (decide (Char.toLower c = '-')) = (decide (c = '-')) := by
    rw [Bool.eq_iff_iff]
    simp only [decide_eq_true_eq]
    exact toLower_eq_symbol (by decide)
  rw [hdot, hdash]

theorem isLocalChar_ne_at {c : Char} (h : isLocalChar c = true) :
    (c != '@') = true := by
  have hne : c ≠ '@' := by
    intro hc
    subst hc
    exact absurd h (by decide)
  simpa using hne

theorem dropWhile_head_false {p : Char → Bool} :
    ∀ (l : List Char) (d : Char) (rest : List Char),
      l.dropWhile p = d :: rest → p d = false
  | [], d, rest, h => by cases h
  | c :: l, d, rest, h => by
      rw [List.dropWhile_cons] at h
      split at h
      · exact dropWhile_head_false l d rest h
      · cases h
        rename_i hc
        exact Bool.not_eq_true _ ▸ hc

theorem splitFirst_eq_some {ch : Char} {l bef aft : List Char}
    (h : splitFirst ch l = some (bef, aft)) :
    l = bef ++ ch :: aft ∧ bef.all (fun c => c != ch) = true := by
  unfold splitFirst at h
  cases hd : l.dropWhile (fun c => c != ch) with
  | nil => rw [hd] at h; cases h
  | cons d rest =>
      rw [hd] at h
      have hp := Option.some_inj.mp h
      have hb : bef = l.takeWhile (fun c => c != ch) :=
        (congrArg Prod.fst hp).symm
      have ha : aft = rest := (congrArg Prod.snd hp).symm
      have hdf : (d != ch) = false := dropWhile_head_false l d rest hd
      have hdc : d = ch := by simpa using hdf
      subst hb
      subst ha
      subst hdc
      constructor
      · conv_lhs => rw [← List.takeWhile_append_dropWhile (fun c => c != d) l]
        rw [hd]
      · rw [List.all_eq_true]
        intro c hc
        exact List.mem_takeWhile_imp (p := fun c => c != d) hc

theorem takeWhile_append_of_all {p : Char → Bool} :
    ∀ (bef : List Char) (suf : List Char), bef.all p = true →
      (bef ++ suf).takeWhile p = bef ++ suf.takeWhile p ∧
      (bef ++ suf).dropWhile p = suf.dropWhile p
  | [], suf, _ => ⟨rfl, rfl⟩
  | c :: bef, suf, h => by
      have hc : p c = true := by
        rw [List.all_eq_true] at h
        exact h c (by simp)
      have ih := takeWhile_append_of_all bef suf (by
        rw [List.all_eq_true] at h ⊢
        intro x hx
        exact h x (by simp [hx]))
      constructor
      · show ((c :: bef) ++ suf).takeWhile p = _
        rw [List.cons_append, List.takeWhile_cons, if_pos hc, ih.1]
        rfl
      · show ((c :: bef) ++ suf).dropWhile p = _
        rw [List.cons_append, List.dropWhile_cons, if_pos hc, ih.2]

theorem splitFirst_append {ch : Char} {bef : List Char} (aft : List Char)
    (h : bef.all (fun c => c != ch) = true) :
    splitFirst ch (bef ++ ch :: aft) = some (bef, aft) := by
  unfold splitFirst
  obtain ⟨ht, hdw⟩ := takeWhile_append_of_all bef (ch :: aft) h
  rw [hdw, List.dropWhile_cons, if_neg (by simp), ht, List.takeWhile_cons,
    if_neg (by simp)]
  simp

theorem splitLastDot_map_toLower (dom : List Char) :
    splitLastDot (lowerChars dom)
      = (splitLastDot dom).map (fun p => (lowerChars p.1, lowerChars p.2)) := by
  unfold splitLastDot lowerChars
  rw [← List.map_reverse, List.dropWhile_map, List.takeWhile_map]
  have hpred : ((fun c => c != '.') ∘ Char.toLower) = (fun c => c != '.') := by
    funext c
    exact bne_dot_toLower c
  rw [hpred]
  cases h : dom.reverse.dropWhile (fun c => c != '.') with
  | nil => rfl
  | cons d rest =>
      simp [List.map_reverse]

theorem domainShape_lower (dom : List Char) :
    domainShape (lowerChars dom) = domainShape dom := by
  unfold domainShape
  rw [splitLastDot_map_toLower]
  cases h : splitLastDot dom with
  | none => rfl
  | some p =>
      obtain ⟨x, y⟩ := p
      simp only [Option.map_some]
      have h1 : (isDomainChar ∘ Char.toLower) = isDomainChar :=
        funext isDomainChar_toLower
      have h2 : (Char.isAlpha ∘ Char.toLower) = Char.isAlpha :=
        funext isAlpha_toLower
      show (!(lowerChars x).isEmpty && (lowerChars x).all isDomainChar
          && decide (2 ≤ (lowerChars y).length)
          && (lowerChars y).all Char.isAlpha)
        = (!x.isEmpty && x.all isDomainChar && decide (2 ≤ y.length)
          && y.all Char.isAlpha)
      unfold lowerChars
      rw [List.all_map, List.all_map, h1, h2, List.length_map]
      congr 1
      congr 2
      cases x <;> rfl

/-- The claim's characterization of an acceptable email, following its
wording: a string `local@domain` whose local part is 1-64 characters from
the letters, digits and `. _ % + -`, whose domain case-insensitively equals
one of the twelve allow-listed domains, and whose total length is at most
254. -/
def emailSpec (s : String) : Prop :=
  ∃ loc dom : List Char,
    s.data = loc ++ '@' :: dom ∧
    1 ≤ loc.length ∧ loc.length ≤ 64 ∧ loc.all isLocalChar = true ∧
    validDomains.contains (String.mk (lowerChars dom)) = true ∧
    s.data.length ≤ 254

theorem emailOk_iff (s : String) : emailOk s = true ↔ emailSpec s := by
  constructor
  · intro h
    unfold emailOk at h
    by_cases h1 : s.data.length < 5
    · rw [if_pos h1] at h; cases h
    rw [if_neg h1] at h
    cases h2 : s.data.contains '@' with
    | false => rw [h2] at h; cases h
    | true =>
        rw [h2] at h
        simp only [Bool.not_true, Bool.false_eq_true, if_false] at h
        cases h3 : emailRegexMatch s.data with
        | false => rw [h3] at h; cases h
        | true =>
            rw [h3] at h
            simp only [Bool.not_true, Bool.false_eq_true, if_false] at h
            cases hsp : splitFirst '@' s.data with
            | none => rw [hsp] at h; cases h
            | some p =>
                obtain ⟨user, dom⟩ := p
                rw [hsp] at h
                replace h : (if user.length < 1 then false
                  else if 64 < user.length then false
                  else if !(validDomains.contains (String.mk (lowerChars dom)))
                    then false
                  else if !(user.all isLocalChar) then false
                  else if 254 < s.data.length then false
                  else true) = true := h
                by_cases h4 : user.length < 1
                · rw [if_pos h4] at h; cases h
                rw [if_neg h4] at h
                by_cases h5 : 64 < user.length
                · rw [if_pos h5] at h; cases h
                rw [if_neg h5] at h
                cases h6 : validDomains.contains (String.mk (lowerChars dom)) with
                | false => rw [h6] at h; cases h
                | true =>
                    rw [h6] at h
                    simp only [Bool.not_true, Bool.false_eq_true, if_false] at h
                    cases h7 : user.all isLocalChar with
                    | false => rw [h7] at h; cases h
                    | true =>
                        rw [h7] at h
                        simp only [Bool.not_true, Bool.false_eq_true,
                          if_false] at h
                        by_cases h8 : 254 < s.data.length
                        · rw [if_pos h8] at h; cases h
                        obtain ⟨hdec, _⟩ := splitFirst_eq_some hsp
                        exact ⟨user, dom, hdec, by omega, by omega, h7, h6,
                          by omega⟩
  · rintro ⟨loc, dom, hdec, hl1, hl64, hcharset, hdomains, h254⟩
    have hll : loc.all (fun c => c != '@') = true := by
      rw [List.all_eq_true] at hcharset ⊢
      intro c hc
      exact isLocalChar_ne_at (hcharset c hc)
    have hsplit : splitFirst '@' s.data = some (loc, dom) := by
      rw [hdec]
      exact splitFirst_append dom hll
    have hmem : String.mk (lowerChars dom) ∈ validDomains :=
      List.elem_iff.mp hdomains
    have hmapl : (lowerChars dom).length = dom.length := List.length_map _ _
    have hdom7 : 7 ≤ dom.length ∧ domainShape dom = true := by
      simp only [validDomains, List.mem_cons, List.not_mem_nil, or_false]
        at hmem
      rcases hmem with he | he | he | he | he | he | he | he | he | he | he | he
        <;> (have hld : lowerChars dom = _ := congrArg String.data he
             have hlen2 := congrArg List.length hld
             rw [hmapl] at hlen2
             constructor
             · rw [hlen2]; decide
             · rw [← domainShape_lower, hld]; decide)
    have hlen : s.data.length = loc.length + 1 + dom.length := by
      rw [hdec, List.length_append, List.length_cons]
      omega
    have hloc_ne : loc.isEmpty = false := by
      cases hl : loc with
      | nil => rw [hl] at hl1; cases hl1
      | cons a l => rfl
    unfold emailOk
    rw [if_neg (by omega)]
    have hcont : s.data.contains '@' = true := by
      rw [List.elem_iff, hdec]
      simp
    rw [hcont]
    simp only [Bool.not_true, Bool.false_eq_true, if_false]
    have hregex : emailRegexMatch s.data = true := by
      unfold emailRegexMatch
      rw [hsplit]
      show (!loc.isEmpty && loc.all isLocalChar && domainShape dom) = true
      rw [hloc_ne, hcharset, hdom7.2]
      rfl
    rw [hregex]
    simp only [Bool.not_true, Bool.false_eq_true, if_false]
    rw [hsplit]
    show (if loc.length < 1 then false
      else if 64 < loc.length then false
      else if !(validDomains.contains (String.mk (lowerChars dom))) then false
      else if !(loc.all isLocalChar) then false
      else if 254 < s.data.length then false
      else true) = true
    rw [if_neg (by omega), if_neg (by omega), hdomains]
    simp only [Bool.not_true, Bool.false_eq_true, if_false]
    rw [hcharset]
    simp only [Bool.not_true, Bool.false_eq_true, if_false]
    rw [if_neg (by omega)]

/-- The email branch of `validate_input` in isolation: for a field named
`email` and declared type `str`, validation returns the input exactly when
the `emailOk` checks pass. -/
theorem validateInput_email (col : String) (h : pyLower col = "email") :
    ∀ t : String, validateInput col t "str"
      = if t = "" then none
        else if emailOk t then some (Value.vStr t) else none := by
  intro t
  unfold validateInput
  rw [h]
  by_cases h0 : t = ""
  · rw [if_pos h0, if_pos h0]
  · rw [if_neg h0, if_neg h0,
      if_neg (by decide : ¬("str" : String) = "int"),
      if_neg (by decide : ¬("str" : String) = "float"), if_pos rfl,
      if_neg (by decide : ¬("email" : String) = "name"), if_pos rfl]

/-- C6.  For a field named `email` (case-insensitively) with Text type,
validation succeeds — returning the input string — exactly on strings of
the form `local@domain` with a 1-64 character local part over letters,
digits and `. _ % + -`, a domain that case-insensitively equals one of the
twelve allow-listed domains, and total length at most 254; in particular it
accepts `a.b@gmail.com` and rejects `a@unknown-domain.io` and
`notanemail`. -/
theorem email_validation (col s : String) (h : pyLower col = "email") :
    (validateInput col s "str" = some (Value.vStr s) ↔ emailSpec s) ∧
    validateInput col "a.b@gmail.com" "str"
      = some (Value.vStr "a.b@gmail.com") ∧
    validateInput col "a@unknown-domain.io" "str" = none ∧
    validateInput col "notanemail" "str" = none := by
  refine ⟨?_, ?_, ?_, ?_⟩
  · rw [validateInput_email col h s]
    by_cases h0 : s = ""
    · rw [if_pos h0]
      constructor
      · intro hv; cases hv
      · rintro ⟨loc, dom, hdec, _⟩
        rw [h0] at hdec
        have := congrArg List.length hdec
        simp at this
        omega
    · rw [if_neg h0]
      cases he : emailOk s with
      | true =>
          rw [if_pos rfl]
          constructor
          · intro _
            exact (emailOk_iff s).mp he
          · intro _
            rfl
      | false =>
          rw [if_neg (by simp)]
          constructor
          · intro hv; cases hv
          · intro hspec
            rw [(emailOk_iff s).mpr hspec] at he
            cases he
  · rw [validateInput_email col h]
    decide
  · rw [validateInput_email col h]
    decide
  · rw [validateInput_email col h]
    decide

/-- Witness for C6 at the concrete field name `Email`, including the three
scenario strings from the spec. -/
theorem email_validation_witness :
    pyLower "Email" = "email" ∧
    validateInput "Email" "a.b@gmail.com" "str"
      = some (Value.vStr "a.b@gmail.com") ∧
    validateInput "Email" "a@unknown-domain.io" "str" = none ∧
    validateInput "Email" "notanemail" "str" = none ∧
    emailSpec "a.b@gmail.com" := by
  have h := email_validation "Email" "a.b@gmail.com" (by decide)
  exact ⟨by decide, h.2.1, h.2.2.1, h.2.2.2, h.1.mp h.2.1⟩

/-! ### Claim C1: uniqueness invariant

Python `==` on the stored values is an equivalence; `toKey` exhibits it as
equality of a canonical key (ints and floats compare as rationals). -/

/-- The canonical comparison key of a value under Python `==`. -/
def toKey : Value → Rat ⊕ String
  | .vInt n => Sum.inl (n : Rat)
  | .vRat q => Sum.inl q
  | .vStr s => Sum.inr s

theorem pyEq_iff_toKey (a b : Value) : pyEq a b = true ↔ toKey a = toKey b := by
  cases a <;> cases b <;> simp [pyEq, toKey]

theorem find_map_setKey (k : String) (v : Value) :
    ∀ d : List (String × Value), hasKey d k = true →
      lookupKey (d.map (fun p => if p.1 == k then (k, v) else p)) k = some v
  | [], h => by cases h
  | (k0, v0) :: rest, h => by
      by_cases hk : (k0 == k) = true
      · simp only [List.map_cons, if_pos hk]
        exact lookupKey_cons_pos _ _ (by simp)
      · simp only [List.map_cons, if_neg hk]
        rw [lookupKey_cons_neg _ _ (by simpa using hk)]
        apply find_map_setKey k v rest
        rw [hasKey_cons] at h
        have h2 : (k0 == k) = true ∨ hasKey rest k = true := by simpa using h
        rcases h2 with h' | h'
        · exact absurd h' hk
        · exact h'

theorem lookupKey_append_right (k : String) (v : Value) :
    ∀ d : List (String × Value), hasKey d k = false →
      lookupKey (d ++ [(k, v)]) k = some v
  | [], _ => lookupKey_cons_pos _ _ (by simp)
  | (k0, v0) :: rest, h => by
      rw [hasKey_cons] at h
      have h1 : (k0 == k) = false := by
        cases hb : (k0 == k) with
        | false => rfl
        | true => rw [hb] at h; cases h
      rw [List.cons_append, lookupKey_cons_neg _ _ h1]
      apply lookupKey_append_right k v rest
      simpa [h1] using h

theorem lookupKey_setKey_self (d : List (String × Value)) (k : String)
    (v : Value) : lookupKey (setKey d k v) k = some v := by
  unfold setKey
  cases h : hasKey d k with
  | true =>
      rw [if_pos rfl]
      exact find_map_setKey k v d h
  | false =>
      rw [if_neg (by simp)]
      exact lookupKey_append_right k v d h

theorem lookupKey_map_setKey_ne (k : String) (v : Value) (k' : String)
    (hne : (k == k') = false) :
    ∀ d : List (String × Value),
      lookupKey (d.map (fun p => if p.1 == k then (k, v) else p)) k'
        = lookupKey d k'
  | [] => rfl
  | (k0, v0) :: rest => by
      by_cases hk : (k0 == k) = true
      · simp only [List.map_cons, if_pos hk]
        have hk0 : k0 = k := eq_of_beq hk
        subst hk0
        rw [lookupKey_cons_neg _ _ hne, lookupKey_cons_neg _ _ hne]
        exact lookupKey_map_setKey_ne k0 v k' hne rest
      · simp only [List.map_cons, if_neg hk]
        by_cases hk' : (k0 == k') = true
        · rw [lookupKey_cons_pos _ _ hk', lookupKey_cons_pos _ _ hk']
        · rw [lookupKey_cons_neg _ _ (by simpa using hk'),
            lookupKey_cons_neg _ _ (by simpa using hk')]
          exact lookupKey_map_setKey_ne k v k' hne rest

theorem lookupKey_append_singleton_ne (k : String) (v : Value) (k' : String)
    (hne : (k == k') = false) :
    ∀ d : List (String × Value), lookupKey (d ++ [(k, v)]) k' = lookupKey d k'
  | [] => by
      show lookupKey [(k, v)] k' = none
      rw [lookupKey_cons_neg _ _ hne]
      rfl
  | (k0, v0) :: rest => by
      by_cases hk' : (k0 == k') = true
      · rw [List.cons_append, lookupKey_cons_pos _ _ hk',
          lookupKey_cons_pos _ _ hk']
      · rw [List.cons_append, lookupKey_cons_neg _ _ (by simpa using hk'),
          lookupKey_cons_neg _ _ (by simpa using hk')]
        exact lookupKey_append_singleton_ne k v k' hne rest

theorem lookupKey_setKey_ne (d : List (String × Value)) (k : String)
    (v : Value) (k' : String) (hne : (k == k') = false) :
    lookupKey (setKey d k v) k' = lookupKey d k' := by
  unfold setKey
  cases h : hasKey d k with
  | true =>
      rw [if_pos rfl]
      exact lookupKey_map_setKey_ne k v k' hne d
  | false =>
      rw [if_neg (by simp)]
      exact lookupKey_append_singleton_ne k v k' hne d

theorem checkUniqueId_spec {sts : List Student} {id_ : String}
    (h : checkUniqueId sts id_ = true) :
    ∀ s ∈ sts, ∀ v, lookupKey s.data "ID" = some v
      → pyEq v (.vStr id_) = false := by
  intro s hs v hv
  unfold checkUniqueId at h
  rw [List.all_eq_true] at h
  have := h s hs
  rw [hv] at this
  unfold pyNe at this
  simpa using this

theorem checkUniqueRoll_spec {sts : List Student} {v : Value}
    (h : checkUniqueRoll sts v = true) :
    ∀ s ∈ sts, ∀ old, lookupKey s.data "Roll Number" = some old
      → pyEq old v = false := by
  intro s hs old hold
  unfold checkUniqueRoll at h
  rw [List.all_eq_true] at h
  have := h s hs
  rw [hold] at this
  unfold pyNe at this
  simpa using this

theorem buildDataLoop_inv (sts : List Student) (vals : String → Value)
    (id_ : String) :
    ∀ (cols : List String) (acc : List (String × Value)),
      lookupKey acc "ID" = some (.vStr id_) →
      (∀ v, lookupKey acc "Roll Number" = some v →
        checkUniqueRoll sts v = true) →
      ∀ d, buildDataLoop sts vals acc cols = some d →
        lookupKey d "ID" = some (.vStr id_) ∧
        (∀ v, lookupKey d "Roll Number" = some v →
          checkUniqueRoll sts v = true)
  | [], acc, hID, hroll, d, h => by
      cases h
      exact ⟨hID, hroll⟩
  | c :: cols, acc, hID, hroll, d, h => by
      unfold buildDataLoop at h
      by_cases hc : c = "ID"
      · rw [if_pos hc] at h
        exact buildDataLoop_inv sts vals id_ cols acc hID hroll d h
      · rw [if_neg hc] at h
        cases hguard : (c = "Roll Number" && !(checkUniqueRoll sts (vals c))) with
        | true => rw [hguard] at h; simp at h
        | false =>
            rw [hguard] at h
            simp only [Bool.false_eq_true, if_false] at h
            apply buildDataLoop_inv sts vals id_ cols (setKey acc c (vals c))
              ?_ ?_ d h
            · rw [lookupKey_setKey_ne _ _ _ _ (by simpa using hc)]
              exact hID
            · intro v hv
              by_cases hcr : c = "Roll Number"
              · rw [hcr] at hv hguard
                rw [lookupKey_setKey_self] at hv
                have hu : checkUniqueRoll sts (vals "Roll Number") = true := by
                  cases hcu : checkUniqueRoll sts (vals "Roll Number") with
                  | true => rfl
                  | false => rw [hcu] at hguard; simp at hguard
                cases hv
                exact hu
              · rw [lookupKey_setKey_ne _ _ _ _ (by simpa using hcr)] at hv
                exact hroll v hv

theorem buildNewData_props {sts : List Student} {cols : List String}
    {id_ : String} {vals : String → Value} {d : List (String × Value)}
    (h : buildNewData sts cols id_ vals = some d) :
    lookupKey d "ID" = some (.vStr id_) ∧
    (∀ v, lookupKey d "Roll Number" = some v →
      checkUniqueRoll sts v = true) := by
  unfold buildNewData at h
  exact buildDataLoop_inv sts vals id_ cols _
    (lookupKey_cons_pos _ _ (by decide))
    (fun v hv => by
      rw [lookupKey_cons_neg _ _ (by decide)] at hv
      cases hv)
    d h

theorem updatedData_ID (s : Student) (vals : String → Value) :
    lookupKey (updatedData s vals) "ID" = lookupKey s.data "ID" := by
  unfold updatedData
  induction s.data with
  | nil => rfl
  | cons p rest ih =>
      obtain ⟨k0, v0⟩ := p
      by_cases hk : (k0 == "ID") = true
      · simp only [List.map_cons, if_pos hk]
        rw [lookupKey_cons_pos _ _ hk, lookupKey_cons_pos _ _ hk]
      · simp only [List.map_cons, if_neg hk]
        rw [lookupKey_cons_neg _ _ (by simpa using hk),
          lookupKey_cons_neg _ _ (by simpa using hk)]
        exact ih

theorem updatedData_roll (s : Student) (vals : String → Value) :
    lookupKey (updatedData s vals) "Roll Number"
      = (lookupKey s.data "Roll Number").map (fun _ => vals "Roll Number") := by
  unfold updatedData
  induction s.data with
  | nil => rfl
  | cons p rest ih =>
      obtain ⟨k0, v0⟩ := p
      by_cases hk : (k0 == "ID") = true
      · simp only [List.map_cons, if_pos hk]
        have hne : (k0 == "Roll Number") = false := by
          have : k0 = "ID" := eq_of_beq hk
          subst this
          decide
        rw [lookupKey_cons_neg _ _ hne, lookupKey_cons_neg _ _ hne]
        exact ih
      · simp only [List.map_cons, if_neg hk]
        by_cases hr : (k0 == "Roll Number") = true
        · rw [lookupKey_cons_pos _ _ hr]
          have hr2 : k0 = "Roll Number" := eq_of_beq hr
          subst hr2
          rw [lookupKey_cons_pos _ _ (by decide)]
          rfl
        · rw [lookupKey_cons_neg _ _ (by simpa using hr),
            lookupKey_cons_neg _ _ (by simpa using hr)]
          exact ih

theorem updateList_some (all : List Student) (id_ : String)
    (vals : String → Value) :
    ∀ (l sts' : List Student) (f : Bool),
      updateList all id_ vals l = (some sts', f) →
      ∃ l1 s l2, l = l1 ++ s :: l2 ∧
        sts' = l1 ++ (⟨updatedData s vals⟩ : Student) :: l2 ∧
        rollGuardUpd all s vals = true
  | [], sts', f, h => by cases h
  | s :: rest, sts', f, h => by
      unfold updateList at h
      by_cases hm : idMatches s id_ = true
      · rw [if_pos hm] at h
        cases hg : rollGuardUpd all s vals with
        | false => rw [hg] at h; simp at h
        | true =>
            rw [hg] at h
            simp only [if_true] at h
            have hs' : sts' = ⟨updatedData s vals⟩ :: rest := by
              have := congrArg Prod.fst h
              simpa using this.symm
            exact ⟨[], s, rest, rfl, by rw [hs']; exact rfl, hg⟩
      · rw [if_neg hm] at h
        cases hrec : updateList all id_ vals rest with
        | mk o f' =>
            rw [hrec] at h
            cases o with
            | none =>
                have := congrArg Prod.fst h
                simp at this
            | some sts'' =>
                have hs' : sts' = s :: sts'' := by
                  have := congrArg Prod.fst h
                  simpa using this.symm
                obtain ⟨l1, t, l2, hdec, hupd, hg⟩ :=
                  updateList_some all id_ vals rest sts'' f' (by rw [hrec])
                exact ⟨s :: l1, t, l2, by rw [hdec]; exact rfl,
                  by rw [hs', hupd]; exact rfl, hg⟩

/-- No two records of the list carry Python-equal values in column `k`. -/
def distinctAt (k : String) (sts : List Student) : Prop :=
  sts.Pairwise (fun a b => ∀ va vb, lookupKey a.data k = some va →
    lookupKey b.data k = some vb → pyEq va vb = false)

theorem lookRel_symm {k : String} {x y : Student}
    (h : ∀ va vb, lookupKey x.data k = some va →
      lookupKey y.data k = some vb → pyEq va vb = false) :
    ∀ va vb, lookupKey y.data k = some va →
      lookupKey x.data k = some vb → pyEq va vb = false := by
  intro va vb h1 h2
  rw [pyEq_symm]
  exact h vb va h2 h1

theorem addStudent_preserves {st : Store} {id_ : String}
    {vals : String → Value} {st' : Store}
    (h : addStudent st id_ vals = some st')
    (hid : distinctAt "ID" st.students)
    (hroll : distinctAt "Roll Number" st.students) :
    distinctAt "ID" st'.students ∧ distinctAt "Roll Number" st'.students := by
  unfold addStudent at h
  by_cases h1 : (id_.data.isEmpty || !(id_.data.all Char.isDigit)) = true
  · rw [if_pos h1] at h; cases h
  rw [if_neg h1] at h
  cases h2 : checkUniqueId st.students id_ with
  | false => rw [h2] at h; simp at h
  | true =>
      rw [h2] at h
      simp only [Bool.not_true, Bool.false_eq_true, if_false] at h
      cases hb : buildNewData st.students st.columns id_ vals with
      | none => rw [hb] at h; cases h
      | some d =>
          rw [hb] at h
          replace h : some ({ st with
              students := st.students ++ [(⟨d⟩ : Student)] } : Store)
            = some st' := h
          injection h with h
          subst h
          obtain ⟨hdID, hdRoll⟩ := buildNewData_props hb
          constructor
          · show List.Pairwise _ (st.students ++ [(⟨d⟩ : Student)])
            rw [List.pairwise_append]
            refine ⟨hid, List.Pairwise.cons
              (fun b hb => absurd hb (List.not_mem_nil b)) List.Pairwise.nil, ?_⟩
            intro a ha b hbm
            simp only [List.mem_singleton] at hbm
            subst hbm
            intro va vb hva hvb
            show pyEq va vb = false
            change lookupKey d "ID" = some vb at hvb
            rw [hdID] at hvb
            cases hvb
            exact checkUniqueId_spec h2 a ha va hva
          · show List.Pairwise _ (st.students ++ [(⟨d⟩ : Student)])
            rw [List.pairwise_append]
            refine ⟨hroll, List.Pairwise.cons
              (fun b hb => absurd hb (List.not_mem_nil b)) List.Pairwise.nil, ?_⟩
            intro a ha b hbm
            simp only [List.mem_singleton] at hbm
            subst hbm
            intro va vb hva hvb
            show pyEq va vb = false
            change lookupKey d "Roll Number" = some vb at hvb
            exact checkUniqueRoll_spec (hdRoll vb hvb) a ha va hva

theorem updateStudent_preserves (st : Store) (id_ : String)
    (vals : String → Value)
    (hid : distinctAt "ID" st.students)
    (hroll : distinctAt "Roll Number" st.students) :
    distinctAt "ID" (updateStudent st id_ vals).store.students ∧
    distinctAt "Roll Number" (updateStudent st id_ vals).store.students := by
  unfold updateStudent
  cases hu : updateList st.students id_ vals st.students with
  | mk o f =>
      cases o with
      | none => exact ⟨hid, hroll⟩
      | some sts' =>
          show distinctAt "ID" sts' ∧ distinctAt "Roll Number" sts'
          obtain ⟨l1, s, l2, hdec, hupd, hg⟩ :=
            updateList_some st.students id_ vals st.students sts' f hu
          have hmem_mid : ∀ x ∈ l1 ++ l2, x ∈ st.students := by
            intro x hx
            rw [hdec]
            rcases List.mem_append.mp hx with hm | hm
            · exact List.mem_append.mpr (Or.inl hm)
            · exact List.mem_append.mpr (Or.inr (List.mem_cons.mpr (Or.inr hm)))
          constructor
          · have hpm := (List.pairwise_middle (fun hxy => lookRel_symm hxy)).mp
              (hdec ▸ hid)
            rw [List.pairwise_cons] at hpm
            obtain ⟨hs_rel, hrest⟩ := hpm
            rw [hupd]
            apply (List.pairwise_middle (fun hxy => lookRel_symm hxy)).mpr
            rw [List.pairwise_cons]
            refine ⟨?_, hrest⟩
            intro x hx va vb hva hvb
            change lookupKey (updatedData s vals) "ID" = some va at hva
            rw [updatedData_ID] at hva
            exact hs_rel x hx va vb hva hvb
          · have hpm := (List.pairwise_middle (fun hxy => lookRel_symm hxy)).mp
              (hdec ▸ hroll)
            rw [List.pairwise_cons] at hpm
            obtain ⟨hs_rel, hrest⟩ := hpm
            rw [hupd]
            apply (List.pairwise_middle (fun hxy => lookRel_symm hxy)).mpr
            rw [List.pairwise_cons]
            refine ⟨?_, hrest⟩
            intro x hx va vb hva hvb
            change lookupKey (updatedData s vals) "Roll Number" = some va at hva
            rw [updatedData_roll] at hva
            cases hos : lookupKey s.data "Roll Number" with
            | none => rw [hos] at hva; cases hva
            | some old =>
                rw [hos] at hva
                replace hva : some (vals "Roll Number") = some va := hva
                injection hva with hva
                subst hva
                unfold rollGuardUpd at hg
                rw [hos] at hg
                replace hg : (pyEq (vals "Roll Number") old
                    || checkUniqueRoll st.students (vals "Roll Number"))
                    = true := hg
                have hg2 : pyEq (vals "Roll Number") old = true ∨
                    checkUniqueRoll st.students (vals "Roll Number") = true := by
                  simpa using hg
                rcases hg2 with hcase | hcase
                · have hxb := hs_rel x hx old vb hos hvb
                  cases hk : pyEq (vals "Roll Number") vb with
                  | false => rfl
                  | true =>
                      rw [pyEq_iff_toKey] at hcase hk
                      have hcontra : pyEq old vb = true :=
                        (pyEq_iff_toKey _ _).mpr (by rw [← hcase, hk])
                      rw [hcontra] at hxb
                      cases hxb
                · rw [pyEq_symm]
                  exact checkUniqueRoll_spec hcase x (hmem_mid x hx) vb hvb

theorem applyOp_preserves (st : Store) (op : Op)
    (hid : distinctAt "ID" st.students)
    (hroll : distinctAt "Roll Number" st.students) :
    distinctAt "ID" (applyOp st op).students ∧
    distinctAt "Roll Number" (applyOp st op).students := by
  cases op with
  | add id_ vals =>
      show distinctAt "ID" ((addStudent st id_ vals).getD st).students ∧
        distinctAt "Roll Number" ((addStudent st id_ vals).getD st).students
      cases ha : addStudent st id_ vals with
      | none => exact ⟨hid, hroll⟩
      | some st' => exact addStudent_preserves ha hid hroll
  | upd id_ vals => exact updateStudent_preserves st id_ vals hid hroll

/-- C1.  From a store whose records already carry pairwise-distinct `ID`
values and pairwise-distinct `Roll Number` values, any sequence of
completed `add_student` / `update_student` operations leaves the `ID`
values pairwise distinct and the `Roll Number` values pairwise distinct
(under Python `==`, so numeric values of different kinds also never
collide). -/
theorem uniqueness_invariant (st : Store) (ops : List Op)
    (hid : distinctAt "ID" st.students)
    (hroll : distinctAt "Roll Number" st.students) :
    distinctAt "ID" (applyOps st ops).students ∧
    distinctAt "Roll Number" (applyOps st ops).students := by
  induction ops generalizing st with
  | nil => exact ⟨hid, hroll⟩
  | cons op ops ih =>
      have h := applyOp_preserves st op hid hroll
      exact ih (applyOp st op) h.1 h.2

/-- A one-record store and a two-operation script (an add of a second
student, then an update of the first) for instantiating the uniqueness
theorem. -/
def c1Store : Store :=
  ⟨["Name", "Roll Number"], defaultColumnTypes,
   [⟨[("ID", Value.vStr "1"), ("Name", Value.vStr "Ann"),
      ("Roll Number", Value.vInt 10)]⟩]⟩

/-- The operation script for the C1 witness. -/
def c1Ops : List Op :=
  [Op.add "2" (fun _ => Value.vInt 11), Op.upd "1" (fun _ => Value.vInt 12)]

/-- Witness for C1: the invariant holds after running the script on the
concrete store. -/
theorem uniqueness_invariant_witness :
    distinctAt "ID" c1Store.students ∧
    distinctAt "Roll Number" c1Store.students ∧
    (distinctAt "ID" (applyOps c1Store c1Ops).students ∧
     distinctAt "Roll Number" (applyOps c1Store c1Ops).students) := by
  have h1 : distinctAt "ID" c1Store.students := by
    simp [distinctAt, c1Store]
  have h2 : distinctAt "Roll Number" c1Store.students := by
    simp [distinctAt, c1Store]
  exact ⟨h1, h2, uniqueness_invariant c1Store c1Ops h1 h2⟩

/-! ### Claim C7: validator idempotence -/

theorem ofDigits_replicate_zero (b : Nat) :
    ∀ j : Nat, Nat.ofDigits b (List.replicate j 0) = 0
  | 0 => rfl
  | j + 1 => by
      rw [List.replicate_succ, Nat.ofDigits_cons, ofDigits_replicate_zero b j]
      simp

theorem charsToNat_replicate_zeros (j : Nat) (cs : List Char) :
    charsToNat (List.replicate j '0' ++ cs) = charsToNat cs := by
  unfold charsToNat
  rw [List.map_append, List.reverse_append, Nat.ofDigits_append]
  have hrep : (List.replicate j '0').map charToDigit = List.replicate j 0 := by
    rw [List.map_replicate]
    rfl
  rw [hrep, List.reverse_replicate, ofDigits_replicate_zero]
  simp

theorem charsToNat_padZeros (k : Nat) (cs : List Char) :
    charsToNat (padZeros k cs) = charsToNat cs :=
  charsToNat_replicate_zeros _ _

theorem padZeros_length {k : Nat} {cs : List Char} (h : cs.length ≤ k) :
    (padZeros k cs).length = k := by
  unfold padZeros
  rw [List.length_append, List.length_replicate]
  omega

theorem padZeros_all_digits {k : Nat} {cs : List Char}
    (h : cs.all Char.isDigit = true) :
    (padZeros k cs).all Char.isDigit = true := by
  unfold padZeros
  rw [List.all_append, h]
  have : (List.replicate (k - cs.length) '0').all Char.isDigit = true := by
    rw [List.all_eq_true]
    intro c hc
    rw [List.eq_of_mem_replicate hc]
    decide
  rw [this]
  rfl

theorem natDigitsAux_length_le (k : Nat) :
    ∀ (fuel n : Nat), n ≤ fuel → n < 10 ^ k →
      (natDigitsAux fuel n).length ≤ k
  | 0, n, _, _ => by simp [natDigitsAux]
  | fuel + 1, n, hle, hlt => by
      unfold natDigitsAux
      by_cases h0 : n = 0
      · rw [if_pos h0]
        simp
      · rw [if_neg h0]
        cases k with
        | zero =>
            exfalso
            simp at hlt
            omega
        | succ k' =>
            have ih := natDigitsAux_length_le k' fuel (n / 10)
              (by omega) (by
                have h10 : (10 : Nat) ^ (k' + 1) = 10 ^ k' * 10 := by
                  rw [Nat.pow_succ]
                rw [h10] at hlt
                exact Nat.div_lt_of_lt_mul (by omega))
            simp only [List.length_cons]
            omega

theorem natToChars_length_le {n k : Nat} (hk : 1 ≤ k) (h : n < 10 ^ k) :
    (natToChars n).length ≤ k := by
  unfold natToChars
  by_cases h0 : n = 0
  · rw [if_pos h0]
    simpa using hk
  · rw [if_neg h0, List.length_map, List.length_reverse]
    exact natDigitsAux_length_le k n n le_rfl h

theorem parseSign_digit_head (c : Char) (r : List Char)
    (hc : c.isDigit = true) : parseSign (c :: r) = (false, c :: r) := by
  show (if c = '-' then (true, r)
    else if c = '+' then (false, r) else (false, c :: r)) = (false, c :: r)
  rw [if_neg (fun h => by subst h; exact absurd hc (by decide)),
    if_neg (fun h => by subst h; exact absurd hc (by decide))]

theorem parseBody_digits_dot (ipart frac : List Char)
    (hip : ipart.all Char.isDigit = true)
    (hfrac : frac.all Char.isDigit = true) (hne : ipart ≠ []) :
    parseBody false (ipart ++ '.' :: frac)
      = some ((charsToNat ipart : Rat)
          + (charsToNat frac : Rat) / (10 : Rat) ^ frac.length) := by
  obtain ⟨htw, hdw⟩ := takeWhile_append_of_all ipart ('.' :: frac) hip
  have htw2 : (ipart ++ '.' :: frac).takeWhile Char.isDigit = ipart := by
    rw [htw, List.takeWhile_cons, if_neg (by decide)]
    exact List.append_nil _
  have hdw2 : (ipart ++ '.' :: frac).dropWhile Char.isDigit = '.' :: frac := by
    rw [hdw, List.dropWhile_cons, if_neg (by decide)]
  have hipe : ipart.isEmpty = false := by
    cases ipart with
    | nil => exact absurd rfl hne
    | cons a l => rfl
  unfold parseBody
  rw [hdw2]
  show (if ('.' : Char) = '.' then
      if frac.all Char.isDigit
          && !(((ipart ++ '.' :: frac).takeWhile Char.isDigit).isEmpty
            && frac.isEmpty) then
        some (applySign false
          ((charsToNat ((ipart ++ '.' :: frac).takeWhile Char.isDigit) : Rat)
            + (charsToNat frac : Rat) / (10 : Rat) ^ frac.length))
      else none
    else none) = _
  rw [if_pos rfl, htw2, hfrac, hipe]
  show (if (true && !(false && frac.isEmpty)) = true then _ else none) = _
  rw [if_pos (by simp)]
  rfl

theorem dvd_pow10_self {d : Nat} (hd : d ≠ 0) {L : Nat} (h : d ∣ 10 ^ L) :
    d ∣ 10 ^ d := by
  have hfac10 : ∀ p : Nat, (10 : Nat).factorization p
      = (if 2 = p then 1 else 0) + (if 5 = p then 1 else 0) := by
    intro p
    have hmul : (10 : Nat) = 2 * 5 := by norm_num
    rw [hmul, Nat.factorization_mul (by norm_num) (by norm_num),
      Finsupp.add_apply, Nat.Prime.factorization Nat.prime_two,
      Nat.Prime.factorization Nat.prime_five,
      Finsupp.single_apply, Finsupp.single_apply]
  rw [← Nat.factorization_le_iff_dvd hd (pow_ne_zero _ (by norm_num))]
  have hle : d.factorization ≤ (10 ^ L).factorization :=
    (Nat.factorization_le_iff_dvd hd (pow_ne_zero _ (by norm_num))).mpr h
  rw [Finsupp.le_def] at hle ⊢
  intro p
  have hp := hle p
  rw [Nat.factorization_pow, Finsupp.smul_apply, smul_eq_mul, hfac10 p] at hp
  rw [Nat.factorization_pow, Finsupp.smul_apply, smul_eq_mul, hfac10 p]
  have hlt : d.factorization p < d := Nat.factorization_lt p hd
  by_cases h2 : 2 = p
  · have h5 : ¬ 5 = p := by omega
    rw [if_pos h2, if_neg h5] at hp ⊢
    omega
  · by_cases h5 : 5 = p
    · rw [if_neg h2, if_pos h5] at hp ⊢
      omega
    · rw [if_neg h2, if_neg h5] at hp ⊢
      omega

theorem pow10Exp_some {d : Nat} (hd : d ≠ 0) {L : Nat}
    (h : d ∣ 10 ^ L) :
    ∃ k, pow10Exp d = some k ∧ (10 : Nat) ^ k % d = 0 := by
  have hdd : d ∣ 10 ^ d := dvd_pow10_self hd h
  have hmod : (10 : Nat) ^ d % d = 0 := by
    obtain ⟨c, hc⟩ := hdd
    rw [hc]
    exact Nat.mul_mod_right d c
  have hmem : ∃ x ∈ List.range (d + 1), ((10 : Nat) ^ x % d == 0) = true :=
    ⟨d, by simp, by simpa using hmod⟩
  have hs : (pow10Exp d).isSome = true := by
    unfold pow10Exp
    rw [List.find?_isSome]
    exact hmem
  obtain ⟨k, hk⟩ := Option.isSome_iff_exists.mp hs
  refine ⟨k, hk, ?_⟩
  have := List.find?_some hk
  simpa using this

theorem applySign_false (q : Rat) : applySign false q = q := rfl

theorem parseBody_den_dvd {neg : Bool} {l : List Char} {q : Rat}
    (h : parseBody neg l = some q) : ∃ L, q.den ∣ (10 : Nat) ^ L := by
  have hsign_den : ∀ x : Rat, (applySign neg x).den = x.den := by
    intro x
    unfold applySign
    cases neg with
    | false => rw [if_neg (by simp)]
    | true => rw [if_pos rfl, Rat.neg_den]
  unfold parseBody at h
  cases hdw : l.dropWhile Char.isDigit with
  | nil =>
      rw [hdw] at h
      by_cases he : (l.takeWhile Char.isDigit).isEmpty = true
      · rw [if_pos he] at h; cases h
      · rw [if_neg he] at h
        injection h with h
        refine ⟨0, ?_⟩
        rw [← h, hsign_den, Rat.den_natCast]
        exact Nat.one_dvd _
  | cons c frac =>
      rw [hdw] at h
      replace h : (if c = '.' then
          if (frac.all Char.isDigit
              && !((l.takeWhile Char.isDigit).isEmpty && frac.isEmpty)) = true then
            some (applySign neg ((charsToNat (l.takeWhile Char.isDigit) : Rat)
              + (charsToNat frac : Rat) / (10 : Rat) ^ frac.length))
          else none
        else none) = some q := h
      by_cases hc : c = '.'
      · rw [if_pos hc] at h
        by_cases hcond : (frac.all Char.isDigit
            && !((l.takeWhile Char.isDigit).isEmpty && frac.isEmpty)) = true
        · rw [if_pos hcond] at h
          injection h with h
          refine ⟨frac.length, ?_⟩
          rw [← h, hsign_den]
          have hrepr : (charsToNat (l.takeWhile Char.isDigit) : Rat)
              + (charsToNat frac : Rat) / (10 : Rat) ^ frac.length
              = Rat.divInt
                  (charsToNat (l.takeWhile Char.isDigit) * 10 ^ frac.length
                    + charsToNat frac)
                  ((10 : Int) ^ frac.length) := by
            rw [Rat.divInt_eq_div]
            have h10 : ((10 : Rat) ^ frac.length) ≠ 0 := by positivity
            field_simp
          rw [hrepr]
          have hdvd := Rat.den_dvd
            (charsToNat (l.takeWhile Char.isDigit) * 10 ^ frac.length
              + charsToNat frac) ((10 : Int) ^ frac.length)
          have h10 : ((10 : Int) ^ frac.length) = ((10 ^ frac.length : Nat) : Int) := by
            push_cast
            rfl
          rw [h10] at hdvd
          exact_mod_cast hdvd
        · rw [if_neg hcond] at h; cases h
      · rw [if_neg hc] at h
        cases h

theorem renderRatChars_pos {q : Rat} {k : Nat} (hk : pow10Exp q.den = some k)
    (hnn : ¬ q.num < 0) :
    renderRatChars q = renderPos q.num.natAbs q.den k := by
  unfold renderRatChars
  rw [if_neg hnn, hk]
  exact rfl

theorem parseFloat_mk_digits_dot (ipart frac : List Char)
    (hip : ipart.all Char.isDigit = true)
    (hfrac : frac.all Char.isDigit = true) (hne : ipart ≠ []) :
    parseFloat (String.mk (ipart ++ '.' :: frac))
      = some ((charsToNat ipart : Rat)
          + (charsToNat frac : Rat) / (10 : Rat) ^ frac.length) := by
  obtain ⟨c, r, hcr⟩ : ∃ c r, ipart = c :: r := by
    cases ipart with
    | nil => exact absurd rfl hne
    | cons c r => exact ⟨c, r, rfl⟩
  have hc : c.isDigit = true := by
    rw [hcr] at hip
    exact List.all_eq_true.mp hip c (by simp)
  unfold parseFloat
  have hps : parseSign (String.mk (ipart ++ '.' :: frac)).data
      = (false, ipart ++ '.' :: frac) := by
    show parseSign (ipart ++ '.' :: frac) = (false, ipart ++ '.' :: frac)
    rw [hcr]
    exact parseSign_digit_head c (r ++ '.' :: frac) hc
  rw [hps]
  show parseBody false (ipart ++ '.' :: frac) = _
  exact parseBody_digits_dot ipart frac hip hfrac hne

theorem parseFloat_renderRat {q : Rat} (hge : 0 ≤ q) {L : Nat}
    (hden : q.den ∣ 10 ^ L) :
    parseFloat (renderRat q) = some q := by
  have hd0 : q.den ≠ 0 := q.den_pos.ne'
  obtain ⟨k, hpk, hk10⟩ := pow10Exp_some hd0 hden
  have hkdvd : q.den ∣ 10 ^ k := Nat.dvd_of_mod_eq_zero hk10
  have hnn : ¬ q.num < 0 := Int.not_lt.mpr (Rat.num_nonneg.mpr hge)
  have habs : ((q.num.natAbs : ℚ)) = (q.num : ℚ) := by
    rw [← Int.cast_natCast, Int.natAbs_of_nonneg (Int.not_lt.mp hnn)]
  have hq_eq : ((q.num.natAbs : ℚ)) / (q.den : ℚ) = q := by
    rw [habs]
    exact Rat.num_div_den q
  unfold renderRat
  rw [renderRatChars_pos hpk hnn]
  unfold renderPos
  by_cases hk0 : k = 0
  · rw [if_pos hk0]
    have hd1 : q.den = 1 := Nat.dvd_one.mp (by simpa [hk0] using hkdvd)
    rw [show (['.', '0'] : List Char) = '.' :: ['0'] from rfl]
    rw [parseFloat_mk_digits_dot _ _ (natToChars_all_digits _) (by decide)
      (natToChars_ne_nil _)]
    congr 1
    rw [charsToNat_natToChars]
    have h0 : charsToNat ['0'] = 0 := by decide
    rw [h0, hd1, Nat.div_one, Nat.cast_zero, zero_div, add_zero, habs]
    conv_rhs => rw [← Rat.num_div_den q, hd1]
    simp
  · rw [if_neg hk0]
    have hk1 : 1 ≤ k := Nat.one_le_iff_ne_zero.mpr hk0
    have hmodlt : q.num.natAbs * 10 ^ k / q.den % 10 ^ k < 10 ^ k :=
      Nat.mod_lt _ (by positivity)
    have hlen : (natToChars (q.num.natAbs * 10 ^ k / q.den % 10 ^ k)).length ≤ k :=
      natToChars_length_le hk1 hmodlt
    have hplen : (padZeros k
        (natToChars (q.num.natAbs * 10 ^ k / q.den % 10 ^ k))).length = k :=
      padZeros_length hlen
    rw [parseFloat_mk_digits_dot _ _ (natToChars_all_digits _)
      (padZeros_all_digits (natToChars_all_digits _)) (natToChars_ne_nil _)]
    congr 1
    rw [charsToNat_natToChars, charsToNat_padZeros, charsToNat_natToChars, hplen]
    have hc10 : ((10 : ℚ)) ^ k ≠ 0 := by positivity
    have hsplit : ∀ m : ℕ,
        ((m / 10 ^ k : ℕ) : ℚ) + ((m % 10 ^ k : ℕ) : ℚ) / (10 : ℚ) ^ k
          = (m : ℚ) / (10 : ℚ) ^ k := by
      intro m
      have hmod := Nat.div_add_mod m (10 ^ k)
      rw [eq_div_iff hc10, add_mul, div_mul_cancel₀ _ hc10]
      have hcast : ((10 ^ k * (m / 10 ^ k) + m % 10 ^ k : ℕ) : ℚ) = (m : ℚ) := by
        exact_mod_cast congrArg (fun x : ℕ => (x : ℚ)) hmod
      push_cast at hcast
      linear_combination hcast
    rw [hsplit]
    have hdvd2 : q.den ∣ q.num.natAbs * 10 ^ k := Dvd.dvd.mul_left hkdvd _
    have hm : ((q.num.natAbs * 10 ^ k / q.den : ℕ) : ℚ)
        = (q.num.natAbs : ℚ) * (10 : ℚ) ^ k / (q.den : ℚ) := by
      rw [Nat.cast_div hdvd2 (by exact_mod_cast hd0)]
      push_cast
      ring
    rw [hm, div_div, mul_comm ((q.den : ℚ)) ((10 : ℚ) ^ k), ← div_div,
      mul_div_assoc, div_self hc10, mul_one]
    exact hq_eq

theorem validateInput_int_parts {col s : String} {v : Value}
    (h : validateInput col s "int" = some v) :
    s.data ≠ [] ∧ s.data.all Char.isDigit = true
      ∧ v = Value.vInt (charsToNat s.data) := by
  unfold validateInput at h
  by_cases hs : s = ""
  · rw [if_pos hs] at h; cases h
  rw [if_neg hs, if_pos rfl] at h
  by_cases hd : (s.data.isEmpty || !(s.data.all Char.isDigit)) = true
  · rw [if_pos hd] at h; cases h
  rw [if_neg hd] at h
  have h1 : s.data ≠ [] := by
    intro hnil
    exact hd (by rw [hnil]; rfl)
  have h2 : s.data.all Char.isDigit = true := by
    cases hall : s.data.all Char.isDigit with
    | true => rfl
    | false => exact absurd (by rw [hall]; simp) hd
  refine ⟨h1, h2, ?_⟩
  simp only [] at h
  repeat' split at h
  all_goals (cases h <;> rfl)

theorem validateInput_int_eq (col : String) {s t : String}
    (hs : s.data ≠ []) (hsd : s.data.all Char.isDigit = true)
    (ht : t.data ≠ []) (htd : t.data.all Char.isDigit = true)
    (heq : charsToNat s.data = charsToNat t.data) :
    validateInput col s "int" = validateInput col t "int" := by
  have hs' : ¬ s = "" := by
    intro h
    subst h
    exact hs rfl
  have ht' : ¬ t = "" := by
    intro h
    subst h
    exact ht rfl
  have hguard_s : (s.data.isEmpty || !(s.data.all Char.isDigit)) = false := by
    rw [hsd]
    simp [List.isEmpty_iff, hs]
  have hguard_t : (t.data.isEmpty || !(t.data.all Char.isDigit)) = false := by
    rw [htd]
    simp [List.isEmpty_iff, ht]
  unfold validateInput
  rw [if_neg hs', if_neg ht', if_pos rfl, if_pos rfl,
    if_neg (show ¬((s.data.isEmpty || !(s.data.all Char.isDigit)) = true) by
      rw [hguard_s]; simp),
    if_neg (show ¬((t.data.isEmpty || !(t.data.all Char.isDigit)) = true) by
      rw [hguard_t]; simp),
    heq]

theorem validateInput_float_parts {col s : String} {v : Value}
    (h : validateInput col s "float" = some v) :
    ∃ q, parseFloat s = some q ∧ ¬ q < 0 ∧ v = Value.vRat q := by
  unfold validateInput at h
  by_cases hs : s = ""
  · rw [if_pos hs] at h; cases h
  rw [if_neg hs, if_neg (by decide), if_pos rfl] at h
  cases hp : parseFloat s with
  | none => rw [hp] at h; cases h
  | some q =>
      rw [hp] at h
      replace h : (if q < 0 then none else some (Value.vRat q)) = some v := h
      by_cases hq : q < 0
      · rw [if_pos hq] at h; cases h
      · rw [if_neg hq] at h
        injection h with h
        exact ⟨q, rfl, hq, h.symm⟩

theorem validateInput_str_parts {col s : String} {v : Value}
    (h : validateInput col s "str" = some v) : v = Value.vStr s := by
  unfold validateInput at h
  by_cases hs : s = ""
  · rw [if_pos hs] at h; cases h
  rw [if_neg hs, if_neg (by decide), if_neg (by decide), if_pos rfl] at h
  repeat' split at h
  all_goals (cases h <;> rfl)

/-! ### Claim C7: validator idempotence -/

/-- C7.  Validator idempotence: whenever `validate_input` accepts an input
text for a given field name and declared type, producing the typed value
`v`, validating the textual rendering of `v` (Python `str(v)`) for the same
field name and type also succeeds and returns exactly the same value `v`. -/
theorem validate_idempotent (col s ty : String) (v : Value)
    (h : validateInput col s ty = some v) :
    validateInput col (valueToStr v) ty = some v := by
  by_cases hint : ty = "int"
  · subst hint
    obtain ⟨h1, h2, hv⟩ := validateInput_int_parts h
    subst hv
    have hvs : valueToStr (Value.vInt ((charsToNat s.data : Int)))
        = natToString (charsToNat s.data) := by
      show (if ((charsToNat s.data : Int)) < 0
          then "-" ++ natToString ((charsToNat s.data : Int)).natAbs
          else natToString ((charsToNat s.data : Int)).natAbs)
        = natToString (charsToNat s.data)
      rw [if_neg (Int.not_lt.mpr (Int.natCast_nonneg _)), Int.natAbs_ofNat]
    rw [hvs]
    have ht1 : (natToString (charsToNat s.data)).data
        = natToChars (charsToNat s.data) := rfl
    have heq2 : validateInput col (natToString (charsToNat s.data)) "int"
        = validateInput col s "int" := by
      refine validateInput_int_eq col ?_ ?_ h1 h2 ?_
      · rw [ht1]; exact natToChars_ne_nil _
      · rw [ht1]; exact natToChars_all_digits _
      · rw [ht1, charsToNat_natToChars]
    rw [heq2]
    exact h
  by_cases hfl : ty = "float"
  · subst hfl
    obtain ⟨q, hq, hnq, hv⟩ := validateInput_float_parts h
    subst hv
    have hge : 0 ≤ q := not_lt.mp hnq
    obtain ⟨L, hden⟩ := parseBody_den_dvd
      (show parseBody (parseSign s.data).1 (parseSign s.data).2 = some q from hq)
    have hrt := parseFloat_renderRat hge hden
    have hne : renderRat q ≠ "" := by
      intro h0
      rw [h0] at hrt
      have hpe : parseFloat "" = none := rfl
      rw [hpe] at hrt
      cases hrt
    show validateInput col (renderRat q) "float" = some (Value.vRat q)
    unfold validateInput
    rw [if_neg hne, if_neg (by decide), if_pos rfl, hrt]
    show (if q < 0 then none else some (Value.vRat q)) = some (Value.vRat q)
    rw [if_neg hnq]
  by_cases hst : ty = "str"
  · subst hst
    have hv := validateInput_str_parts h
    subst hv
    exact h
  · exfalso
    unfold validateInput at h
    by_cases hs0 : s = ""
    · rw [if_pos hs0] at h; cases h
    rw [if_neg hs0, if_neg hint, if_neg hfl, if_neg hst] at h
    cases h

theorem validate_idempotent_witness :
    validateInput "Age" "20" "int" = some (Value.vInt 20)
      ∧ validateInput "Age" (valueToStr (Value.vInt 20)) "int"
          = some (Value.vInt 20) :=
  ⟨by decide, validate_idempotent "Age" "20" "int" (Value.vInt 20) (by decide)⟩
